import Mathlib

/-!
Verification of wait-free-value-store: `ring_deque` and `reader_writer_store`.

A shallow embedding of `src/ring_deque.hpp` and `src/reader_writer_store.hpp`.

* `ring_deque α` is the C++ object: the storage array, `_cap`, `_size`, `bidx`, `eidx`.
  A storage cell is `none` while it holds no constructed element (fresh from `new T[n]`,
  or finalised by `fini_idx`) and `some x` once `init_idx` constructed `x` in it.
* `std::size_t` values are natural numbers; the subtractions that can go below zero are
  taken modulo `2 ^ 64` (`size_sub`).  Sums and products stay far below `2 ^ 64` for every
  buffer that fits in memory and are not reduced.
* An operation that can abort (`assert`), run into undefined behaviour (dereferencing an
  empty optional) or loop is a function into `Res`; loops and the recursion of the pushes
  take a fuel argument.
* `reader_writer_store T` carries the C++ fields (`cur`, `num_readers`, `gc_queue`,
  `write_lock`) and, as ghost state, the heap of value slots, the log of `delete` calls, the
  log of in-place reconstructions, the slot recorded by every view, and whether a read took
  place since the last publication.  Its steps are whole operations.
* `new T` hands out a new even address each time (`slot_addr`).  `delete p` and the in-place
  reconstruction `p->~T(); new (p) T{v}` are total: they act on the heap cell of `p` and are
  appended to the logs, so a second `delete` of a slot or the reconstruction of a deleted
  slot shows in the logs instead of stopping the run.
* The tagged word `cur` is a natural number; `& PTR_MASK`, `|= 1` and `& READ_BIT` are written
  arithmetically (`ptr_mask`, `set_read_bit`, `read_bit`).
-/

set_option autoImplicit false

namespace WaitFree

/-! ## Outcomes -/

/-- Outcome of an operation that may not return normally. -/
inductive Res (σ : Type) where
  | ok (s : σ)
  | assert_failed
  | undefined
  | out_of_fuel
  deriving DecidableEq

/-- The state an operation returned, if it returned. -/
def Res.get? {σ : Type} : Res σ → Option σ
  | Res.ok s => some s
  | _ => none

/-- What `front()` / `back()` hand back: an empty optional, a reference to the cell `idx`
holding the constructed element `x`, or a reference to a cell `idx` that lies outside the
storage or holds no constructed element. -/
inductive Access (α : Type) where
  | absent
  | present (idx : Nat) (x : α)
  | wild (idx : Nat)
  deriving DecidableEq

/-! ## ring_deque -/

/-- Modulus of `std::size_t`. -/
def SIZE_MOD : Nat := 2 ^ 64

/-- Subtraction of `std::size_t` values (both below `SIZE_MOD`): it wraps around. -/
def size_sub (a b : Nat) : Nat := if b ≤ a then a - b else a + SIZE_MOD - b

/-- The object `ring_deque<T>`. -/
structure ring_deque (α : Type) where
  data : List (Option α)
  _cap : Nat
  _size : Nat
  bidx : Nat
  eidx : Nat
  deriving DecidableEq

namespace ring_deque

variable {α : Type}

/-- Value of `INIT_CAP`. -/
def INIT_CAP : Nat := 16

/-- A default-constructed `ring_deque`: `new T[INIT_CAP]`, all counters zero. -/
def fresh : ring_deque α :=
  { data := List.replicate INIT_CAP none, _cap := INIT_CAP, _size := 0, bidx := 0, eidx := 0 }

/-- Source: `idx > 0 ? idx - 1 : _cap - 1`. -/
def dec_idx (d : ring_deque α) (idx : Nat) : Nat :=
  if idx > 0 then idx - 1 else size_sub d._cap 1

/-- Source: `(idx + 1) % _cap`. -/
def inc_idx (d : ring_deque α) (idx : Nat) : Nat := (idx + 1) % d._cap

/-- Source: `new (&data[idx]) T(elem)`. -/
def init_idx (d : ring_deque α) (idx : Nat) (elem : α) : ring_deque α :=
  { d with data := d.data.set idx (some elem) }

/-- Source: `data[idx].~T()`. -/
def fini_idx (d : ring_deque α) (idx : Nat) : ring_deque α :=
  { d with data := d.data.set idx none }

/-- A reference to `data[idx]`, classified by what the cell holds. -/
def access (d : ring_deque α) (idx : Nat) : Access α :=
  match d.data[idx]? with
  | some (some x) => Access.present idx x
  | _ => Access.wild idx

/-- Source: `if (_size > 0) ret = data[bidx]`. -/
def front (d : ring_deque α) : Access α :=
  if d._size > 0 then d.access d.bidx else Access.absent

/-- Source: `can_pop = bidx != eidx`, then `fini_idx(bidx); bidx = inc_idx(bidx); _size--`. -/
def pop_front (d : ring_deque α) : Bool × ring_deque α :=
  if d.bidx ≠ d.eidx then
    let d1 := d.fini_idx d.bidx
    let d2 := { d1 with bidx := d1.inc_idx d1.bidx }
    (true, { d2 with _size := size_sub d2._size 1 })
  else (false, d)

/-- Source: `if (_size > 0) ret = data[eidx - 1]`. -/
def back (d : ring_deque α) : Access α :=
  if d._size > 0 then d.access (size_sub d.eidx 1) else Access.absent

/-- Source: `can_pop = bidx != eidx`, then `fini_idx(eidx); eidx = dec_idx(eidx); _size--`. -/
def pop_back (d : ring_deque α) : Bool × ring_deque α :=
  if d.bidx ≠ d.eidx then
    let d1 := d.fini_idx d.eidx
    let d2 := { d1 with eidx := d1.dec_idx d1.eidx }
    (true, { d2 with _size := size_sub d2._size 1 })
  else (false, d)

/-- The copy loop of `reserve`: `k` iterations are left, `i` is the loop counter, `idx` the
read cursor, `nd` the new storage of `new_cap` cells.  Each iteration moves `data[idx]` to
`new_data[i]`, advances `idx` and checks `assert(i < new_cap)`. -/
def reserve_loop (d : ring_deque α) (new_cap : Nat) :
    Nat → Nat → Nat → List (Option α) → Res (List (Option α))
  | 0, _, _, nd => Res.ok nd
  | k + 1, i, idx, nd =>
    let nd1 := nd.set i (d.data.getD idx none)
    let idx1 := d.inc_idx idx
    if i < new_cap then reserve_loop d new_cap k (i + 1) idx1 nd1 else Res.assert_failed

/-- Source: `reserve(new_cap)`: `assert(new_cap > _size)`, copy the elements front to back
into a new array from index 0, then `bidx = 0; eidx = _size; _cap = new_cap`. -/
def reserve (d : ring_deque α) (new_cap : Nat) : Res (ring_deque α) :=
  if new_cap > d._size then
    match reserve_loop d new_cap d._size 0 d.bidx (List.replicate new_cap none) with
    | Res.ok nd => Res.ok { data := nd, _cap := new_cap, _size := d._size, bidx := 0, eidx := d._size }
    | Res.assert_failed => Res.assert_failed
    | Res.undefined => Res.undefined
    | Res.out_of_fuel => Res.out_of_fuel
  else Res.assert_failed

/-- Source: `push_front(elem)`; every call, the recursive one included, uses one unit of
fuel. -/
def push_front : Nat → ring_deque α → α → Res (ring_deque α)
  | 0, _, _ => Res.out_of_fuel
  | fuel + 1, d, elem =>
    if d._size < d._cap then
      let d1 := { d with bidx := d.dec_idx d.bidx }
      let d2 := d1.init_idx d1.bidx elem
      Res.ok { d2 with _size := d2._size + 1 }
    else
      match d.reserve (d._cap * 3 / 2) with
      | Res.ok d1 => push_front fuel d1 elem
      | Res.assert_failed => Res.assert_failed
      | Res.undefined => Res.undefined
      | Res.out_of_fuel => Res.out_of_fuel

/-- Source: `push_back(elem)`; every call, the recursive one included, uses one unit of
fuel. -/
def push_back : Nat → ring_deque α → α → Res (ring_deque α)
  | 0, _, _ => Res.out_of_fuel
  | fuel + 1, d, elem =>
    if d._size < d._cap then
      let d1 := d.init_idx d.eidx elem
      let d2 := { d1 with eidx := d1.inc_idx d1.eidx }
      Res.ok { d2 with _size := d2._size + 1 }
    else
      match d.reserve (d._cap * 3 / 2) with
      | Res.ok d1 => push_back fuel d1 elem
      | Res.assert_failed => Res.assert_failed
      | Res.undefined => Res.undefined
      | Res.out_of_fuel => Res.out_of_fuel

/-- Source: `*this = ring_deque()`. -/
def clear (_d : ring_deque α) : ring_deque α := fresh

/-- Source: `_size == 0`. -/
def empty (d : ring_deque α) : Bool := d._size == 0

/-- Source: `return _size`. -/
def size (d : ring_deque α) : Nat := d._size

/-- The cells of the logical positions `0 .. _size - 1`, front to back: position `j` is the
cell `(bidx + j) % _cap`. -/
def content (d : ring_deque α) : List (Option α) :=
  (List.range d._size).map fun j => d.data.getD ((d.bidx + j) % d._cap) none

/-- A call of the public interface of `ring_deque`. -/
inductive Call (α : Type) where
  | push_front (x : α)
  | push_back (x : α)
  | pop_front
  | pop_back
  | front
  | back
  | size
  | empty
  | clear
  | reserve (n : Nat)
  deriving DecidableEq

/-- What a caller sees of a call: nothing, the boolean of a pop or of `empty`, the optional
element of `front` / `back`, a size, or a reference that does not designate a constructed
element of the storage. -/
inductive Obs (α : Type) where
  | unit
  | bool (b : Bool)
  | elem (x : Option α)
  | nat (n : Nat)
  | invalid (idx : Nat)
  deriving DecidableEq

/-- The observation carried by an `Access`. -/
def Obs.of_access {α : Type} : Access α → Obs α
  | Access.absent => Obs.elem none
  | Access.present _ x => Obs.elem (some x)
  | Access.wild idx => Obs.invalid idx

/-- The calls that only push or pop or look, the ones of a plain deque. -/
def Call.is_deque_call {α : Type} : Call α → Bool
  | Call.clear => false
  | Call.reserve _ => false
  | _ => true

/-- The calls that push or pop. -/
def Call.is_push_pop {α : Type} : Call α → Bool
  | Call.push_front _ => true
  | Call.push_back _ => true
  | Call.pop_front => true
  | Call.pop_back => true
  | _ => false

/-- The state after one call. -/
def call (fuel : Nat) (d : ring_deque α) : Call α → Res (ring_deque α)
  | Call.push_front x => d.push_front fuel x
  | Call.push_back x => d.push_back fuel x
  | Call.pop_front => Res.ok d.pop_front.2
  | Call.pop_back => Res.ok d.pop_back.2
  | Call.front => Res.ok d
  | Call.back => Res.ok d
  | Call.size => Res.ok d
  | Call.empty => Res.ok d
  | Call.clear => Res.ok d.clear
  | Call.reserve n => d.reserve n

/-- The result one call hands to its caller. -/
def observe (d : ring_deque α) : Call α → Obs α
  | Call.push_front _ => Obs.unit
  | Call.push_back _ => Obs.unit
  | Call.pop_front => Obs.bool d.pop_front.1
  | Call.pop_back => Obs.bool d.pop_back.1
  | Call.front => Obs.of_access d.front
  | Call.back => Obs.of_access d.back
  | Call.size => Obs.nat d.size
  | Call.empty => Obs.bool d.empty
  | Call.clear => Obs.unit
  | Call.reserve _ => Obs.unit

/-- Runs a sequence of calls; the results are collected in call order. -/
def run (fuel : Nat) : List (Call α) → ring_deque α → Res (ring_deque α × List (Obs α))
  | [], d => Res.ok (d, [])
  | c :: cs, d =>
    match d.call fuel c with
    | Res.ok d1 =>
      match run fuel cs d1 with
      | Res.ok (d2, os) => Res.ok (d2, d.observe c :: os)
      | Res.assert_failed => Res.assert_failed
      | Res.undefined => Res.undefined
      | Res.out_of_fuel => Res.out_of_fuel
    | Res.assert_failed => Res.assert_failed
    | Res.undefined => Res.undefined
    | Res.out_of_fuel => Res.out_of_fuel

/-- The states reached from a freshly constructed buffer by calls satisfying `allowed`, each
of which returned. -/
inductive Reachable (allowed : Call α → Bool) : ring_deque α → Prop where
  | fresh : Reachable allowed fresh
  | step {d d1 : ring_deque α} (fuel : Nat) (c : Call α) :
      Reachable allowed d → allowed c = true → d.call fuel c = Res.ok d1 → Reachable allowed d1

end ring_deque

/-! ## The reference deque -/

namespace ref_deque

variable {α : Type}

/-- The state after one call on the reference deque, a list read front to back; `clear`
empties it and `reserve` leaves it alone. -/
def call (xs : List α) : ring_deque.Call α → List α
  | ring_deque.Call.push_front x => x :: xs
  | ring_deque.Call.push_back x => xs ++ [x]
  | ring_deque.Call.pop_front => xs.tail
  | ring_deque.Call.pop_back => xs.dropLast
  | ring_deque.Call.clear => []
  | _ => xs

/-- The result of one call on the reference deque: a pop returns true exactly when the
deque is non-empty. -/
def observe (xs : List α) : ring_deque.Call α → ring_deque.Obs α
  | ring_deque.Call.push_front _ => ring_deque.Obs.unit
  | ring_deque.Call.push_back _ => ring_deque.Obs.unit
  | ring_deque.Call.pop_front => ring_deque.Obs.bool (!xs.isEmpty)
  | ring_deque.Call.pop_back => ring_deque.Obs.bool (!xs.isEmpty)
  | ring_deque.Call.front => ring_deque.Obs.elem xs.head?
  | ring_deque.Call.back => ring_deque.Obs.elem xs.getLast?
  | ring_deque.Call.size => ring_deque.Obs.nat xs.length
  | ring_deque.Call.empty => ring_deque.Obs.bool xs.isEmpty
  | ring_deque.Call.clear => ring_deque.Obs.unit
  | ring_deque.Call.reserve _ => ring_deque.Obs.unit

/-- Runs a sequence of calls on the reference deque. -/
def run : List (ring_deque.Call α) → List α → List α × List (ring_deque.Obs α)
  | [], xs => (xs, [])
  | c :: cs, xs => ((run cs (call xs c)).1, observe xs c :: (run cs (call xs c)).2)

end ref_deque

/-! ## reader_writer_store -/

/-- Value of `READ_BIT`. -/
def READ_BIT : Nat := 1

/-- The word `p & PTR_MASK`, with `PTR_MASK = ~READ_BIT`: bit 0 cleared. -/
def ptr_mask (p : Nat) : Nat := p - p % 2

/-- The word `p | 1`: bit 0 set. -/
def set_read_bit (p : Nat) : Nat := p - p % 2 + READ_BIT

/-- The word `p & READ_BIT`. -/
def read_bit (p : Nat) : Nat := p % 2

/-- Address of the `k`-th slot handed out by `new T`: even and not null. -/
def slot_addr (k : Nat) : Nat := 2 * (k + 1)

/-- Index in the heap of the slot at address `p`. -/
def slot_index (p : Nat) : Nat := p / 2 - 1

/-- A view handed out by `get_view`: destroyed, alive without a read so far, or alive and
holding the reference to the slot `p` that its last read returned. -/
inductive View where
  | released
  | idle
  | holds (p : Nat)
  deriving DecidableEq

/-- Is the view alive. -/
def View.live : View → Bool
  | View.released => false
  | _ => true

/-- The object `reader_writer_store<T>`, with its ghost state: `heap` (cell `k` is the slot at
`slot_addr k`, `none` once deleted), `freed` (the arguments of `delete`, in call order),
`recycled` (the slots destroyed and reconstructed in place, in order), `views` (every view
ever handed out) and `observed` (a read took place since `cur` was last stored). -/
structure reader_writer_store (T : Type) where
  cur : Nat
  num_readers : Nat
  gc_queue : ring_deque Nat
  write_lock : Bool
  heap : List (Option T)
  freed : List Nat
  recycled : List Nat
  views : List View
  observed : Bool
  deriving DecidableEq

/-- A whole operation on the store. -/
inductive Op (T : Type) where
  | get_view
  | release (i : Nat)
  | read (i : Nat)
  | write (v : T)
  deriving DecidableEq

namespace reader_writer_store

variable {T : Type}

/-- Source: `new T{v}`: a new slot at a new address. -/
def alloc (s : reader_writer_store T) (v : T) : Nat × reader_writer_store T :=
  (slot_addr s.heap.length, { s with heap := s.heap ++ [some v] })

/-- Source: `delete p`. -/
def delete (s : reader_writer_store T) (p : Nat) : reader_writer_store T :=
  { s with heap := s.heap.set (slot_index p) none, freed := s.freed ++ [p] }

/-- Source: `p->~T(); new (p) T{v}`. -/
def reconstruct (s : reader_writer_store T) (p : Nat) (v : T) : reader_writer_store T :=
  { s with heap := s.heap.set (slot_index p) (some v), recycled := s.recycled ++ [p] }

/-- The value read through a `T*` equal to `p`: none for the null pointer, an odd address, an
address never handed out, or a deleted slot. -/
def load (s : reader_writer_store T) (p : Nat) : Option T :=
  if p % 2 = 0 ∧ 0 < p then s.heap.getD (slot_index p) none else none

/-- Source: the constructor `reader_writer_store(T init)`; `num_readers{0}`, a default
`gc_queue`, the lock free.  The assertion `cur.load() % 2 == 0` holds of `slot_addr 0`. -/
def construct (init : T) : reader_writer_store T :=
  { cur := slot_addr 0, num_readers := 0, gc_queue := ring_deque.fresh, write_lock := false,
    heap := [some init], freed := [], recycled := [], views := [], observed := false }

/-- Source: `get_view()`, that is `reader_view(this)`: `parent->num_readers++`. -/
def get_view (s : reader_writer_store T) : reader_writer_store T :=
  { s with num_readers := s.num_readers + 1, views := s.views ++ [View.idle] }

/-- Is `i` a view that was handed out and not yet destroyed. -/
def live_view (s : reader_writer_store T) (i : Nat) : Bool := (s.views.getD i View.released).live

/-- Source: `~reader_view()`: `parent->num_readers--`; only a live view can be destroyed. -/
def release (s : reader_writer_store T) (i : Nat) : Res (reader_writer_store T) :=
  if s.live_view i then
    Res.ok { s with num_readers := s.num_readers - 1, views := s.views.set i View.released }
  else Res.undefined

/-- The address the reference returned by `operator*` points to:
`(parent->cur |= 1) & PTR_MASK`. -/
def read_ref (s : reader_writer_store T) : Nat := ptr_mask (set_read_bit s.cur)

/-- Source: `reader_view::operator*` on the live view `i`: sets the read bit of `cur`; the
view now holds a reference to the slot `read_ref`. -/
def read (s : reader_writer_store T) (i : Nat) : Res (reader_writer_store T) :=
  if s.live_view i then
    Res.ok { s with cur := set_read_bit s.cur, views := s.views.set i (View.holds s.read_ref),
                    observed := true }
  else Res.undefined

/-- The value a read yields in state `s`. -/
def read_value (s : reader_writer_store T) : Option T := s.load s.read_ref

/-- Source: the loop `while (gc_queue.size() > num_readers.load() + 2)` of `write`, with body
`delete *gc_queue.front(); gc_queue.pop_front();`.  One unit of fuel per iteration. -/
def trim : Nat → reader_writer_store T → Res (reader_writer_store T)
  | 0, s => if s.gc_queue.size > s.num_readers + 2 then Res.out_of_fuel else Res.ok s
  | fuel + 1, s =>
    if s.gc_queue.size > s.num_readers + 2 then
      match s.gc_queue.front with
      | Access.present _ p => trim fuel { s.delete p with gc_queue := s.gc_queue.pop_front.2 }
      | _ => Res.undefined
    else Res.ok s

/-- Source: lines 89 to 102 of `write`: the destination slot `new_data` and the state after
obtaining it. -/
def write_dest (fuel : Nat) (s : reader_writer_store T) (data : T) :
    Res (Nat × reader_writer_store T) :=
  if s.gc_queue.size ≤ s.num_readers then
    let r := s.alloc data
    if r.1 % 2 = 0 then Res.ok r else Res.assert_failed
  else
    match trim fuel s with
    | Res.ok s1 =>
      match s1.gc_queue.front with
      | Access.present _ p =>
        Res.ok (p, { s1.reconstruct p data with gc_queue := s1.gc_queue.pop_front.2 })
      | _ => Res.undefined
    | Res.assert_failed => Res.assert_failed
    | Res.undefined => Res.undefined
    | Res.out_of_fuel => Res.out_of_fuel

/-- Source: lines 104 to 118 of `write`: `temp = cur.exchange(new_data)`, then the old slot
goes to the front of `gc_queue` when its read bit is clear and to the back otherwise. -/
def write_retire (fuel : Nat) (s : reader_writer_store T) (new_data : Nat) :
    Res (reader_writer_store T) :=
  let temp := s.cur
  let s1 := { s with cur := new_data, observed := false }
  let can_delete := read_bit temp = 0
  let old_data := ptr_mask temp
  match (if can_delete then s1.gc_queue.push_front fuel old_data
         else s1.gc_queue.push_back fuel old_data) with
  | Res.ok q => Res.ok { s1 with gc_queue := q }
  | Res.assert_failed => Res.assert_failed
  | Res.undefined => Res.undefined
  | Res.out_of_fuel => Res.out_of_fuel

/-- Source: `write(T data)`.  The assertion on `write_lock` fails when the lock is taken. -/
def write (fuel : Nat) (s : reader_writer_store T) (data : T) : Res (reader_writer_store T) :=
  if s.write_lock then Res.assert_failed
  else
    match write_dest fuel { s with write_lock := true } data with
    | Res.ok (new_data, s1) =>
      match write_retire fuel s1 new_data with
      | Res.ok s2 => Res.ok { s2 with write_lock := false }
      | Res.assert_failed => Res.assert_failed
      | Res.undefined => Res.undefined
      | Res.out_of_fuel => Res.out_of_fuel
    | Res.assert_failed => Res.assert_failed
    | Res.undefined => Res.undefined
    | Res.out_of_fuel => Res.out_of_fuel

/-- The loop `while (!gc_queue.empty())` of the destructor, with body
`delete *gc_queue.front(); gc_queue.pop_front();`. -/
def drain : Nat → reader_writer_store T → Res (reader_writer_store T)
  | 0, s => if s.gc_queue.empty then Res.ok s else Res.out_of_fuel
  | fuel + 1, s =>
    if s.gc_queue.empty then Res.ok s
    else
      match s.gc_queue.front with
      | Access.present _ p => drain fuel { s.delete p with gc_queue := s.gc_queue.pop_front.2 }
      | _ => Res.undefined

/-- Source: the destructor `~reader_writer_store()`: `temp = cur.exchange(0)`, the wait
`while (num_readers.load() > 0);` (which no sequential step ends), `delete` of the slot of
`temp`, then the drain loop. -/
def destroy (fuel : Nat) (s : reader_writer_store T) : Res (reader_writer_store T) :=
  let temp := s.cur
  let s1 := { s with cur := 0 }
  if s1.num_readers > 0 then Res.out_of_fuel
  else drain fuel (s1.delete (ptr_mask temp))

/-- One whole operation. -/
def step (fuel : Nat) (s : reader_writer_store T) : Op T → Res (reader_writer_store T)
  | Op.get_view => Res.ok s.get_view
  | Op.release i => s.release i
  | Op.read i => s.read i
  | Op.write v => s.write fuel v

/-- Runs a sequence of whole operations. -/
def run (fuel : Nat) : List (Op T) → reader_writer_store T → Res (reader_writer_store T)
  | [], s => Res.ok s
  | op :: ops, s =>
    match s.step fuel op with
    | Res.ok s1 => run fuel ops s1
    | Res.assert_failed => Res.assert_failed
    | Res.undefined => Res.undefined
    | Res.out_of_fuel => Res.out_of_fuel

/-- The states reached from a constructed store by whole operations that returned. -/
inductive Reachable : reader_writer_store T → Prop where
  | construct (init : T) : Reachable (construct init)
  | step {s s1 : reader_writer_store T} (fuel : Nat) (op : Op T) :
      Reachable s → s.step fuel op = Res.ok s1 → Reachable s1

/-- The slots a live view holds a reference to. -/
def held (s : reader_writer_store T) : List Nat :=
  s.views.filterMap fun v => match v with
    | View.holds p => some p
    | _ => none

end reader_writer_store

/-! ## Predicates and concrete states used by the theorems -/

namespace ring_deque

variable {α : Type}

/-- Well-formedness of a buffer: the storage has `_cap` cells, the cursors are inside it, and
the end cursor is `_size` positions after the begin cursor, modulo `_cap`. -/
structure WF (d : ring_deque α) : Prop where
  cap_pos : 0 < d._cap
  len : d.data.length = d._cap
  size_le : d._size ≤ d._cap
  bidx_lt : d.bidx < d._cap
  eidx_eq : d.eidx = (d.bidx + d._size) % d._cap

/-- A buffer filled to its initial capacity by sixteen `push_back` calls. -/
def full16 : ring_deque Nat :=
  { data := (List.range 16).map fun i => some (i + 1), _cap := 16, _size := 16, bidx := 0,
    eidx := 0 }

/-- The sixteen calls `push_back(1)`, ..., `push_back(16)`. -/
def fill16 : List (Call Nat) := (List.range 16).map fun i => Call.push_back (i + 1)

/-- The buffer after `push_front(1)` on a fresh one: the element sits in the last cell and
the end cursor is still 0. -/
def pushed_front : ring_deque Nat :=
  { data := List.replicate 15 none ++ [some 1], _cap := 16, _size := 1, bidx := 15, eidx := 0 }

/-- A buffer drained by `push_back(1); pop_front()`: empty, cursors at 1. -/
def drained : ring_deque Nat :=
  { data := List.replicate 16 none, _cap := 16, _size := 0, bidx := 1, eidx := 1 }

/-- The buffer after `push_front(1); push_back(2)`: its content wraps around the end of the
storage. -/
def wrapped : ring_deque Nat :=
  { data := some 2 :: (List.replicate 14 none ++ [some 1]), _cap := 16, _size := 2, bidx := 15,
    eidx := 1 }

end ring_deque

namespace reader_writer_store

variable {T : Type}

/-- The address `p` is one of the first `n` slots handed out by `new T`. -/
def valid_slot (n p : Nat) : Prop := p % 2 = 0 ∧ 2 ≤ p ∧ p / 2 ≤ n

/-- Invariant of the reachable stores. -/
structure Inv (s : reader_writer_store T) : Prop where
  wf : ring_deque.WF s.gc_queue
  queue_valid : ∀ c ∈ s.gc_queue.content, ∃ p, c = some p ∧ valid_slot s.heap.length p
  cur_valid : valid_slot s.heap.length (ptr_mask s.cur)
  obs : s.observed = true ↔ read_bit s.cur = 1
  lock : s.write_lock = false

/-- Is the operation a `write`. -/
def is_write : Op T → Bool
  | Op.write _ => true
  | _ => false

/-- Two views, the first of which reads once and then stalls while the second reads after
each of three writes. -/
def stalled_trace : List (Op Nat) :=
  [Op.get_view, Op.get_view, Op.read 0, Op.write 1, Op.read 1, Op.write 2, Op.read 1,
   Op.write 3, Op.read 1]

/-- The store after `stalled_trace` on `construct 0`: view 0 holds the slot at address 2,
which is now the oldest entry of the retirement queue. -/
def stalled : reader_writer_store Nat :=
  { cur := 9, num_readers := 2,
    gc_queue := { data := [some 2, some 4, some 6] ++ List.replicate 13 none, _cap := 16,
                  _size := 3, bidx := 0, eidx := 3 },
    write_lock := false, heap := [some 0, some 1, some 2, some 3], freed := [], recycled := [],
    views := [View.holds 2, View.holds 8], observed := true }

/-- The store after `write(4)` on `stalled`: the slot at address 2 was recycled. -/
def stalled_next : reader_writer_store Nat :=
  { cur := 2, num_readers := 2,
    gc_queue := { data := [none, some 4, some 6, some 8] ++ List.replicate 12 none, _cap := 16,
                  _size := 3, bidx := 1, eidx := 4 },
    write_lock := false, heap := [some 4, some 1, some 2, some 3], freed := [],
    recycled := [2], views := [View.holds 2, View.holds 8], observed := false }

/-- Fifteen views are handed out, sixteen writes follow, then the fifteen views are
destroyed. -/
def jam_trace : List (Op Nat) :=
  List.replicate 15 Op.get_view ++ (List.range 16).map (fun i => Op.write (i + 1)) ++
    (List.range 15).map Op.release

/-- The store after `jam_trace` on `construct 0`: the retirement queue holds sixteen slots in
its sixteen cells, both cursors are 0 and no view is alive. -/
def jammed : reader_writer_store Nat :=
  { cur := 34, num_readers := 0,
    gc_queue := { data := (List.range 16).map fun i => some (32 - 2 * i), _cap := 16,
                  _size := 16, bidx := 0, eidx := 0 },
    write_lock := false, heap := (List.range 17).map some, freed := [], recycled := [],
    views := List.replicate 15 View.released, observed := false }

/-- The store after `construct 0; write(5)`. -/
def written : reader_writer_store Nat :=
  { cur := 4, num_readers := 0,
    gc_queue := { data := List.replicate 15 none ++ [some 2], _cap := 16, _size := 1,
                  bidx := 15, eidx := 0 },
    write_lock := false, heap := [some 0, some 5], freed := [], recycled := [], views := [],
    observed := false }

/-- The store after `construct 0; write(5); get_view; read`. -/
def written_read : reader_writer_store Nat :=
  { written with cur := 5, num_readers := 1, views := [View.holds 4], observed := true }

/-- The store after `construct 0; get_view; read`. -/
def read_once : reader_writer_store Nat :=
  { cur := 3, num_readers := 1, gc_queue := ring_deque.fresh, write_lock := false,
    heap := [some 0], freed := [], recycled := [], views := [View.holds 2], observed := true }

end reader_writer_store

namespace ring_deque

/-- The buffer after `push_back(1); push_back(2); push_back(3)` on a fresh one. -/
def three : ring_deque Nat :=
  { data := [some 1, some 2, some 3] ++ List.replicate 13 none, _cap := 16, _size := 3,
    bidx := 0, eidx := 3 }

/-- The buffer after `reserve(1); push_back(1)` on a fresh one: capacity one, full. -/
def unit_full : ring_deque Nat :=
  { data := [some 1], _cap := 1, _size := 1, bidx := 0, eidx := 0 }

end ring_deque

namespace reader_writer_store

/-- Fifteen views are handed out and sixteen writes follow: the retirement queue then holds
sixteen slots in its sixteen cells, with fifteen views alive. -/
def slip_trace : List (Op Nat) :=
  List.replicate 15 Op.get_view ++ (List.range 16).map (fun i => Op.write (i + 1))

/-- The release of all fifteen views of `slip_trace`. -/
def release_all : List (Op Nat) := (List.range 15).map Op.release

end reader_writer_store

namespace reader_writer_store

end reader_writer_store

namespace reader_writer_store

variable {T : Type}

end reader_writer_store

/-! ## Theorems: ring_deque -/

namespace ring_deque

variable {α : Type}

theorem mod_wrap (b j c : Nat) (hb : b < c) (hj : j ≤ c) :
    (b + j) % c = if b + j < c then b + j else b + j - c := by
  split
  · next h => exact Nat.mod_eq_of_lt h
  · next h =>
    rw [Nat.mod_eq_sub_mod (by omega)]
    exact Nat.mod_eq_of_lt (by omega)

theorem content_length (d : ring_deque α) : d.content.length = d._size := by
  simp [content]

theorem content_getElem? (d : ring_deque α) (j : Nat) :
    d.content[j]? = if j < d._size then some (d.data.getD ((d.bidx + j) % d._cap) none) else none := by
  unfold content
  rw [List.getElem?_map]
  by_cases h : j < d._size
  · simp [h, List.getElem?_range]
  · simp [h, List.getElem?_eq_none]
    omega

theorem getD_set (l : List (Option α)) (i j : Nat) (v : Option α) (hi : i < l.length) :
    (l.set i v).getD j none = if i = j then v else l.getD j none := by
  simp only [List.getD_eq_getElem?_getD, List.getElem?_set]
  by_cases h : i = j
  · subst h; simp [hi]
  · simp [h]


theorem wf_fresh : WF (fresh : ring_deque α) := by
  constructor <;> simp [fresh, INIT_CAP]

theorem cursors_eq_iff (d : ring_deque α) (h : WF d) :
    d.bidx = d.eidx ↔ d._size = 0 ∨ d._size = d._cap := by
  have h1 := h.bidx_lt
  have h2 := h.size_le
  rw [h.eidx_eq, mod_wrap _ _ _ h1 h2]
  split <;> omega

theorem push_back_not_full (d : ring_deque α) (hlt : d._size < d._cap) (fuel : Nat) (x : α) :
    d.push_back (fuel + 1) x = Res.ok
      { data := d.data.set d.eidx (some x), _cap := d._cap, _size := d._size + 1,
        bidx := d.bidx, eidx := (d.eidx + 1) % d._cap } := by
  simp [push_back, hlt, init_idx, inc_idx]

/-- The not-full branch of `push_back`. -/
theorem push_back_fast (d : ring_deque α) (h : WF d) (hlt : d._size < d._cap) (fuel : Nat)
    (x : α) :
    ∃ d1, d.push_back (fuel + 1) x = Res.ok d1 ∧ WF d1 ∧ d1.content = d.content ++ [some x] ∧
      d1._cap = d._cap ∧ d1._size = d._size + 1 ∧ d1.bidx = d.bidx := by
  have hb := h.bidx_lt
  have hl := h.len
  have he := h.eidx_eq
  rw [mod_wrap _ _ _ hb (by omega)] at he
  refine ⟨_, push_back_not_full d hlt fuel x, ?_, ?_, rfl, rfl, rfl⟩
  · constructor
    · exact h.cap_pos
    · simp [hl]
    · show d._size + 1 ≤ d._cap
      omega
    · exact hb
    · show (d.eidx + 1) % d._cap = (d.bidx + (d._size + 1)) % d._cap
      rw [h.eidx_eq, Nat.mod_add_mod, Nat.add_assoc]
  · apply List.ext_getElem?
    intro j
    rw [content_getElem?]
    show (if j < d._size + 1 then
        some ((d.data.set d.eidx (some x)).getD ((d.bidx + j) % d._cap) none) else none) = _
    have hel : d.eidx < d.data.length := by split at he <;> omega
    rw [getD_set _ _ _ _ hel]
    by_cases hj : j < d._size
    · rw [List.getElem?_append_left (by rw [content_length]; exact hj), content_getElem?]
      have hne : d.eidx ≠ (d.bidx + j) % d._cap := by
        rw [he, mod_wrap _ _ _ hb (by omega)]
        split <;> split <;> omega
      simp [hj, hne, Nat.lt_succ_of_lt hj]
    · by_cases hj2 : j = d._size
      · subst hj2
        rw [List.getElem?_append_right (by rw [content_length])]
        simp [content_length, h.eidx_eq]
      · rw [List.getElem?_eq_none (by simp [content_length]; omega)]
        rw [if_neg (by omega)]


theorem push_front_not_full (d : ring_deque α) (hlt : d._size < d._cap) (fuel : Nat) (x : α) :
    d.push_front (fuel + 1) x = Res.ok
      { data := d.data.set (d.dec_idx d.bidx) (some x), _cap := d._cap, _size := d._size + 1,
        bidx := d.dec_idx d.bidx, eidx := d.eidx } := by
  simp [push_front, hlt, init_idx, dec_idx]

theorem dec_idx_eq (d : ring_deque α) (h : 0 < d._cap) (i : Nat) :
    d.dec_idx i = if 0 < i then i - 1 else d._cap - 1 := by
  unfold dec_idx size_sub
  by_cases hi : 0 < i
  · simp [hi]
  · have : 1 ≤ d._cap := h
    simp [hi, this]

/-- The not-full branch of `push_front`. -/
theorem push_front_fast (d : ring_deque α) (h : WF d) (hlt : d._size < d._cap) (fuel : Nat)
    (x : α) :
    ∃ d1, d.push_front (fuel + 1) x = Res.ok d1 ∧ WF d1 ∧ d1.content = some x :: d.content ∧
      d1._cap = d._cap ∧ d1._size = d._size + 1 ∧ d1.bidx = d.dec_idx d.bidx := by
  have hb := h.bidx_lt
  have hl := h.len
  have hc := h.cap_pos
  have hd := dec_idx_eq d hc d.bidx
  have hdl : d.dec_idx d.bidx < d._cap := by rw [hd]; split <;> omega
  refine ⟨_, push_front_not_full d hlt fuel x, ?_, ?_, rfl, rfl, rfl⟩
  · constructor
    · exact hc
    · simp [hl]
    · show d._size + 1 ≤ d._cap
      omega
    · exact hdl
    · show d.eidx = (d.dec_idx d.bidx + (d._size + 1)) % d._cap
      rw [h.eidx_eq, hd]
      split
      · congr 1; omega
      · have : d._cap - 1 + (d._size + 1) = d.bidx + d._size + d._cap := by omega
        rw [this, Nat.add_mod_right]
  · apply List.ext_getElem?
    intro j
    rw [content_getElem?]
    show (if j < d._size + 1 then
        some ((d.data.set (d.dec_idx d.bidx) (some x)).getD ((d.dec_idx d.bidx + j) % d._cap) none)
        else none) = _
    rw [getD_set _ _ _ _ (by omega)]
    cases j with
    | zero => simp [Nat.mod_eq_of_lt hdl]
    | succ k =>
      rw [List.getElem?_cons_succ, content_getElem?]
      by_cases hk : k < d._size
      · have e1 : (d.dec_idx d.bidx + (k + 1)) % d._cap = (d.bidx + k) % d._cap := by
          rw [hd]
          split
          · congr 1; omega
          · have : d._cap - 1 + (k + 1) = d.bidx + k + d._cap := by omega
            rw [this, Nat.add_mod_right]
        have hne : d.dec_idx d.bidx ≠ (d.bidx + k) % d._cap := by
          rw [hd, mod_wrap _ _ _ hb (by omega)]
          split <;> split <;> omega
        rw [e1]
        simp [hk, hne]
      · simp [hk]

theorem pop_front_can (d : ring_deque α) (hne : d.bidx ≠ d.eidx) :
    d.pop_front = (true,
      { data := d.data.set d.bidx none, _cap := d._cap, _size := size_sub d._size 1,
        bidx := (d.bidx + 1) % d._cap, eidx := d.eidx }) := by
  simp [pop_front, hne, fini_idx, inc_idx]

theorem pop_front_cannot (d : ring_deque α) (he : d.bidx = d.eidx) : d.pop_front = (false, d) := by
  simp [pop_front, he]

/-- A successful `pop_front`. -/
theorem pop_front_ok (d : ring_deque α) (h : WF d) (hne : d.bidx ≠ d.eidx) :
    d.pop_front.1 = true ∧ WF d.pop_front.2 ∧ d.pop_front.2.content = d.content.tail ∧
      d.pop_front.2._cap = d._cap ∧ d.pop_front.2._size + 1 = d._size := by
  have hb := h.bidx_lt
  have hl := h.len
  have hc := h.cap_pos
  have hs : 0 < d._size ∧ d._size < d._cap := by
    have := (cursors_eq_iff d h).not.mp hne
    have := h.size_le
    omega
  have hsub : size_sub d._size 1 = d._size - 1 := by
    unfold size_sub
    rw [if_pos (by omega)]
  rw [pop_front_can d hne, hsub]
  refine ⟨rfl, ?_, ?_, rfl, ?_⟩
  · constructor
    · exact hc
    · simp [hl]
    · show d._size - 1 ≤ d._cap
      omega
    · exact Nat.mod_lt _ hc
    · show d.eidx = ((d.bidx + 1) % d._cap + (d._size - 1)) % d._cap
      rw [h.eidx_eq, Nat.mod_add_mod]
      congr 1; omega
  · apply List.ext_getElem?
    intro j
    rw [content_getElem?, List.getElem?_tail, content_getElem?]
    show (if j < d._size - 1 then
        some ((d.data.set d.bidx none).getD (((d.bidx + 1) % d._cap + j) % d._cap) none)
        else none) = _
    rw [getD_set _ _ _ _ (by omega), Nat.mod_add_mod]
    by_cases hj : j < d._size - 1
    · have hne2 : d.bidx ≠ (d.bidx + 1 + j) % d._cap := by
        have := mod_wrap d.bidx (1 + j) d._cap hb (by omega)
        rw [← Nat.add_assoc] at this
        rw [this]
        split <;> omega
      have e : d.bidx + 1 + j = d.bidx + (j + 1) := by omega
      rw [e] at hne2 ⊢
      simp [hj, hne2, show j + 1 < d._size by omega]
    · simp [hj, show ¬ (j + 1 < d._size) by omega]
  · show d._size - 1 + 1 = d._size
    omega


theorem pop_back_can (d : ring_deque α) (hne : d.bidx ≠ d.eidx) :
    d.pop_back = (true,
      { data := d.data.set d.eidx none, _cap := d._cap, _size := size_sub d._size 1,
        bidx := d.bidx, eidx := d.dec_idx d.eidx }) := by
  simp [pop_back, hne, fini_idx, dec_idx]

theorem pop_back_cannot (d : ring_deque α) (he : d.bidx = d.eidx) : d.pop_back = (false, d) := by
  simp [pop_back, he]

/-- A successful `pop_back`. -/
theorem pop_back_ok (d : ring_deque α) (h : WF d) (hne : d.bidx ≠ d.eidx) :
    d.pop_back.1 = true ∧ WF d.pop_back.2 ∧ d.pop_back.2.content = d.content.dropLast ∧
      d.pop_back.2._cap = d._cap ∧ d.pop_back.2._size + 1 = d._size := by
  have hb := h.bidx_lt
  have hl := h.len
  have hc := h.cap_pos
  have hs : 0 < d._size ∧ d._size < d._cap := by
    have := (cursors_eq_iff d h).not.mp hne
    have := h.size_le
    omega
  have hsub : size_sub d._size 1 = d._size - 1 := by
    unfold size_sub
    rw [if_pos (by omega)]
  have he := h.eidx_eq
  rw [mod_wrap _ _ _ hb (by omega)] at he
  have hd := dec_idx_eq d hc d.eidx
  rw [pop_back_can d hne, hsub]
  refine ⟨rfl, ?_, ?_, rfl, ?_⟩
  · constructor
    · exact hc
    · simp [hl]
    · show d._size - 1 ≤ d._cap
      omega
    · exact hb
    · show d.dec_idx d.eidx = (d.bidx + (d._size - 1)) % d._cap
      rw [hd, mod_wrap _ _ _ hb (by omega), he]
      split <;> split <;> split <;> omega
  · apply List.ext_getElem?
    intro j
    rw [content_getElem?, List.getElem?_dropLast, content_length, content_getElem?]
    show (if j < d._size - 1 then
        some ((d.data.set d.eidx none).getD ((d.bidx + j) % d._cap) none)
        else none) = _
    rw [getD_set _ _ _ _ (by split at he <;> omega)]
    by_cases hj : j < d._size - 1
    · have hne2 : d.eidx ≠ (d.bidx + j) % d._cap := by
        rw [he, mod_wrap _ _ _ hb (by omega)]
        split <;> split <;> omega
      simp [hj, hne2, show j < d._size by omega]
    · simp [hj]
  · show d._size - 1 + 1 = d._size
    omega


/-- The copy loop of `reserve` returns, and what it leaves in the new storage. -/
theorem reserve_loop_ok (d : ring_deque α) (new_cap : Nat) :
    ∀ (k i : Nat) (nd : List (Option α)), i + k ≤ new_cap → nd.length = new_cap →
      ∃ nd1, d.reserve_loop new_cap k i ((d.bidx + i) % d._cap) nd = Res.ok nd1 ∧
        nd1.length = new_cap ∧
        ∀ j, nd1.getD j none =
          if i ≤ j ∧ j < i + k then d.data.getD ((d.bidx + j) % d._cap) none
          else nd.getD j none := by
  intro k
  induction k with
  | zero =>
    intro i nd _ hl
    refine ⟨nd, rfl, hl, ?_⟩
    intro j
    rw [if_neg (by omega)]
  | succ k ih =>
    intro i nd hik hl
    have hi : i < new_cap := by omega
    obtain ⟨nd1, h1, h2, h3⟩ := ih (i + 1)
      (nd.set i (d.data.getD ((d.bidx + i) % d._cap) none)) (by omega) (by simp [hl])
    refine ⟨nd1, ?_, h2, ?_⟩
    · simp only [reserve_loop, hi, if_true, inc_idx, Nat.mod_add_mod]
      rw [← h1, Nat.add_assoc]
    · intro j
      rw [h3 j, getD_set _ _ _ _ (by omega)]
      by_cases hj : i = j
      · subst hj
        simp
      · by_cases hj2 : i + 1 ≤ j ∧ j < i + 1 + k
        · rw [if_pos hj2, if_pos (by omega)]
        · rw [if_neg hj2, if_neg hj, if_neg (by omega)]

/-- A `reserve` whose assertion holds. -/
theorem reserve_ok (d : ring_deque α) (h : WF d) (n : Nat) (hn : n > d._size) :
    ∃ d1, d.reserve n = Res.ok d1 ∧ WF d1 ∧ d1.content = d.content ∧ d1._cap = n ∧
      d1._size = d._size ∧ d1.bidx = 0 ∧ d1.eidx = d._size ∧ d1.data.take d._size = d.content := by
  obtain ⟨nd, h1, h2, h3⟩ := reserve_loop_ok d n d._size 0 (List.replicate n none) (by omega)
    (by simp)
  rw [Nat.add_zero, Nat.mod_eq_of_lt h.bidx_lt] at h1
  refine ⟨{ data := nd, _cap := n, _size := d._size, bidx := 0, eidx := d._size }, ?_, ?_, ?_,
    rfl, rfl, rfl, rfl, ?_⟩
  · simp [reserve, hn, h1]
  · constructor
    · show 0 < n
      omega
    · exact h2
    · show d._size ≤ n
      omega
    · show 0 < n
      omega
    · show d._size = (0 + d._size) % n
      rw [Nat.zero_add, Nat.mod_eq_of_lt hn]
  · apply List.ext_getElem?
    intro j
    rw [content_getElem?, content_getElem?]
    show (if j < d._size then some (nd.getD ((0 + j) % n) none) else none) = _
    by_cases hj : j < d._size
    · rw [if_pos hj, if_pos hj, Nat.zero_add, Nat.mod_eq_of_lt (by omega), h3 j,
        if_pos (by omega)]
    · rw [if_neg hj, if_neg hj]
  · apply List.ext_getElem?
    intro j
    show (nd.take d._size)[j]? = _
    rw [content_getElem?, List.getElem?_take]
    by_cases hj : j < d._size
    · rw [if_pos hj, if_pos hj]
      have := h3 j
      rw [if_pos (by omega), List.getD_eq_getElem?_getD] at this
      rw [← this, List.getElem?_eq_getElem (by omega)]
      simp
    · rw [if_neg hj, if_neg hj]

theorem reserve_fails (d : ring_deque α) (n : Nat) (hn : n ≤ d._size) :
    d.reserve n = Res.assert_failed := by
  simp [reserve, Nat.not_lt.mpr hn]


theorem take_set_ge (l : List (Option α)) (m n : Nat) (v : Option α) (h : m ≤ n) :
    (l.set n v).take m = l.take m := by
  apply List.ext_getElem?
  intro j
  rw [List.getElem?_take, List.getElem?_take]
  by_cases hj : j < m
  · rw [if_pos hj, if_pos hj, List.getElem?_set_ne (by omega)]
  · rw [if_neg hj, if_neg hj]

/-- What a `push_back` that returned has done. -/
theorem push_back_spec (fuel : Nat) (d : ring_deque α) (h : WF d) (x : α) (d1 : ring_deque α)
    (hr : d.push_back fuel x = Res.ok d1) :
    WF d1 ∧ d1.content = d.content ++ [some x] ∧ d1._size = d._size + 1 ∧
      (if d._size < d._cap then d1._cap = d._cap
       else d1._cap = d._cap * 3 / 2 ∧ d1.data.take d._size = d.content) := by
  cases fuel with
  | zero => simp [push_back] at hr
  | succ f =>
    by_cases hlt : d._size < d._cap
    · obtain ⟨d2, e, hw, hc, hcap, hs, _⟩ := push_back_fast d h hlt f x
      rw [e] at hr
      cases hr
      exact ⟨hw, hc, hs, by rw [if_pos hlt]; exact hcap⟩
    · rw [if_neg hlt]
      by_cases hn : d._cap * 3 / 2 > d._size
      · obtain ⟨d2, e, hw, hc, hcap, hs, hb0, he0, htk⟩ := reserve_ok d h _ hn
        have hr2 : d2.push_back f x = Res.ok d1 := by
          simpa [push_back, hlt, e] using hr
        cases f with
        | zero => simp [push_back] at hr2
        | succ g =>
          have hlt2 : d2._size < d2._cap := by omega
          rw [push_back_not_full d2 hlt2 g x] at hr2
          obtain ⟨d3, e3, hw3, hc3, hcap3, hs3, _⟩ := push_back_fast d2 hw hlt2 g x
          rw [push_back_not_full d2 hlt2 g x] at e3
          rw [e3] at hr2
          cases hr2
          refine ⟨hw3, by rw [hc3, hc], by omega, by omega, ?_⟩
          cases e3
          show (d2.data.set d2.eidx (some x)).take d._size = d.content
          rw [take_set_ge _ _ _ _ (by omega), htk]
      · have e := reserve_fails d _ (Nat.not_lt.mp hn)
        simp [push_back, hlt, e] at hr

/-- What a `push_front` that returned has done. -/
theorem push_front_spec (fuel : Nat) (d : ring_deque α) (h : WF d) (x : α) (d1 : ring_deque α)
    (hr : d.push_front fuel x = Res.ok d1) :
    WF d1 ∧ d1.content = some x :: d.content ∧ d1._size = d._size + 1 ∧
      (if d._size < d._cap then d1._cap = d._cap
       else d1._cap = d._cap * 3 / 2 ∧ d1.data.take d._size = d.content) := by
  cases fuel with
  | zero => simp [push_front] at hr
  | succ f =>
    by_cases hlt : d._size < d._cap
    · obtain ⟨d2, e, hw, hc, hcap, hs, _⟩ := push_front_fast d h hlt f x
      rw [e] at hr
      cases hr
      exact ⟨hw, hc, hs, by rw [if_pos hlt]; exact hcap⟩
    · rw [if_neg hlt]
      by_cases hn : d._cap * 3 / 2 > d._size
      · obtain ⟨d2, e, hw, hc, hcap, hs, hb0, he0, htk⟩ := reserve_ok d h _ hn
        have hr2 : d2.push_front f x = Res.ok d1 := by
          simpa [push_front, hlt, e] using hr
        cases f with
        | zero => simp [push_front] at hr2
        | succ g =>
          have hlt2 : d2._size < d2._cap := by omega
          obtain ⟨d3, e3, hw3, hc3, hcap3, hs3, _⟩ := push_front_fast d2 hw hlt2 g x
          rw [e3] at hr2
          cases hr2
          refine ⟨hw3, by rw [hc3, hc], by omega, by omega, ?_⟩
          rw [push_front_not_full d2 hlt2 g x] at e3
          cases e3
          show (d2.data.set (d2.dec_idx d2.bidx) (some x)).take d._size = d.content
          have hd := dec_idx_eq d2 hw.cap_pos d2.bidx
          rw [take_set_ge _ _ _ _ (by rw [hd, hb0]; simp; omega), htk]
      · have e := reserve_fails d _ (Nat.not_lt.mp hn)
        simp [push_front, hlt, e] at hr

/-- A `push_back` returns as soon as it has two units of fuel, unless the buffer is full
with capacity one. -/
theorem push_back_returns (d : ring_deque α) (h : WF d) (hc : d._size < d._cap ∨ 2 ≤ d._cap)
    (fuel : Nat) (x : α) : ∃ d1, d.push_back (fuel + 2) x = Res.ok d1 := by
  by_cases hlt : d._size < d._cap
  · exact ⟨_, push_back_not_full d hlt (fuel + 1) x⟩
  · have hs := h.size_le
    have hn : d._cap * 3 / 2 > d._size := by omega
    obtain ⟨d2, e, hw, _, hcap, hsz, _⟩ := reserve_ok d h _ hn
    have hlt2 : d2._size < d2._cap := by omega
    apply Exists.intro
    rw [push_back, if_neg hlt, e]
    exact push_back_not_full d2 hlt2 fuel x

/-- A `push_front` returns as soon as it has two units of fuel, unless the buffer is full
with capacity one. -/
theorem push_front_returns (d : ring_deque α) (h : WF d) (hc : d._size < d._cap ∨ 2 ≤ d._cap)
    (fuel : Nat) (x : α) : ∃ d1, d.push_front (fuel + 2) x = Res.ok d1 := by
  by_cases hlt : d._size < d._cap
  · exact ⟨_, push_front_not_full d hlt (fuel + 1) x⟩
  · have hs := h.size_le
    have hn : d._cap * 3 / 2 > d._size := by omega
    obtain ⟨d2, e, hw, _, hcap, hsz, _⟩ := reserve_ok d h _ hn
    have hlt2 : d2._size < d2._cap := by omega
    apply Exists.intro
    rw [push_front, if_neg hlt, e]
    exact push_front_not_full d2 hlt2 fuel x


theorem reserve_inv (d : ring_deque α) (h : WF d) (n : Nat) (d1 : ring_deque α)
    (hr : d.reserve n = Res.ok d1) :
    n > d._size ∧ WF d1 ∧ d1.content = d.content ∧ d1._cap = n ∧ d1._size = d._size ∧
      d1.data.take d._size = d.content := by
  by_cases hn : n > d._size
  · obtain ⟨d2, e, hw, hc, hcap, hs, _, _, htk⟩ := reserve_ok d h n hn
    rw [e] at hr
    cases hr
    exact ⟨hn, hw, hc, hcap, hs, htk⟩
  · rw [reserve_fails d n (Nat.not_lt.mp hn)] at hr
    cases hr

theorem pop_front_inv (d : ring_deque α) (h : WF d) :
    WF d.pop_front.2 ∧ d.pop_front.2._cap = d._cap ∧
      (d.pop_front.2.content = d.content.tail ∨ d.pop_front.2 = d) := by
  by_cases he : d.bidx = d.eidx
  · rw [pop_front_cannot d he]
    exact ⟨h, rfl, Or.inr rfl⟩
  · obtain ⟨_, hw, hc, hcap, _⟩ := pop_front_ok d h he
    exact ⟨hw, hcap, Or.inl hc⟩

theorem pop_back_inv (d : ring_deque α) (h : WF d) :
    WF d.pop_back.2 ∧ d.pop_back.2._cap = d._cap ∧
      (d.pop_back.2.content = d.content.dropLast ∨ d.pop_back.2 = d) := by
  by_cases he : d.bidx = d.eidx
  · rw [pop_back_cannot d he]
    exact ⟨h, rfl, Or.inr rfl⟩
  · obtain ⟨_, hw, hc, hcap, _⟩ := pop_back_ok d h he
    exact ⟨hw, hcap, Or.inl hc⟩

theorem content_fresh : (fresh : ring_deque α).content = [] := by
  simp [content, fresh]

/-- Every reachable buffer is well formed and its logical positions hold constructed
elements. -/
theorem reachable_inv (allowed : Call α → Bool) (d : ring_deque α) (hd : Reachable allowed d) :
    WF d ∧ ∃ xs : List α, d.content = xs.map some := by
  induction hd with
  | fresh => exact ⟨wf_fresh, [], content_fresh⟩
  | step fuel c _ _ hc ih =>
    obtain ⟨hw, xs, hxs⟩ := ih
    cases c with
    | push_front x =>
      obtain ⟨h1, h2, _⟩ := push_front_spec fuel _ hw x _ hc
      exact ⟨h1, x :: xs, by rw [h2, hxs]; rfl⟩
    | push_back x =>
      obtain ⟨h1, h2, _⟩ := push_back_spec fuel _ hw x _ hc
      exact ⟨h1, xs ++ [x], by rw [h2, hxs]; simp⟩
    | pop_front =>
      cases hc
      obtain ⟨h1, _, h3⟩ := pop_front_inv _ hw
      refine ⟨h1, ?_⟩
      rcases h3 with h3 | h3
      · exact ⟨xs.tail, by rw [h3, hxs]; simp [List.map_tail]⟩
      · exact ⟨xs, by rw [h3, hxs]⟩
    | pop_back =>
      cases hc
      obtain ⟨h1, _, h3⟩ := pop_back_inv _ hw
      refine ⟨h1, ?_⟩
      rcases h3 with h3 | h3
      · exact ⟨xs.dropLast, by rw [h3, hxs]; simp [List.map_dropLast]⟩
      · exact ⟨xs, by rw [h3, hxs]⟩
    | front => cases hc; exact ⟨hw, xs, hxs⟩
    | back => cases hc; exact ⟨hw, xs, hxs⟩
    | size => cases hc; exact ⟨hw, xs, hxs⟩
    | empty => cases hc; exact ⟨hw, xs, hxs⟩
    | clear => cases hc; exact ⟨wf_fresh, [], content_fresh⟩
    | reserve n =>
      obtain ⟨_, h1, h2, _⟩ := reserve_inv _ hw n _ hc
      exact ⟨h1, xs, by rw [h2, hxs]⟩

/-- Without `reserve` the capacity never drops below `INIT_CAP`. -/
theorem reachable_cap (allowed : Call α → Bool) (hres : ∀ n, allowed (Call.reserve n) = false)
    (d : ring_deque α) (hd : Reachable allowed d) : INIT_CAP ≤ d._cap := by
  induction hd with
  | fresh => exact Nat.le_refl _
  | @step d0 d1 fuel c hd0 ha hc ih =>
    have hw := (reachable_inv allowed d0 hd0).1
    cases c with
    | push_front x =>
      obtain ⟨_, _, _, h4⟩ := push_front_spec fuel _ hw x _ hc
      have := hw.size_le
      unfold INIT_CAP at *
      split at h4 <;> omega
    | push_back x =>
      obtain ⟨_, _, _, h4⟩ := push_back_spec fuel _ hw x _ hc
      have := hw.size_le
      unfold INIT_CAP at *
      split at h4 <;> omega
    | pop_front => cases hc; rw [(pop_front_inv _ hw).2.1]; exact ih
    | pop_back => cases hc; rw [(pop_back_inv _ hw).2.1]; exact ih
    | front => cases hc; exact ih
    | back => cases hc; exact ih
    | size => cases hc; exact ih
    | empty => cases hc; exact ih
    | clear => cases hc; exact Nat.le_refl _
    | reserve n => rw [hres n] at ha; cases ha

/-- A run of allowed calls that returns ends in a reachable state. -/
theorem reachable_of_run (allowed : Call α → Bool) (fuel : Nat) :
    ∀ (cs : List (Call α)) (d : ring_deque α), Reachable allowed d →
      (cs.all allowed = true) → ∀ r, ring_deque.run fuel cs d = Res.ok r → Reachable allowed r.1 := by
  intro cs
  induction cs with
  | nil =>
    intro d hd _ r hr
    simp [ring_deque.run] at hr
    rw [← hr]
    exact hd
  | cons c cs ih =>
    intro d hd hall r hr
    rw [List.all_cons, Bool.and_eq_true] at hall
    unfold ring_deque.run at hr
    cases hc : d.call fuel c with
    | ok d1 =>
      cases hrun : ring_deque.run fuel cs d1 with
      | ok r1 =>
        obtain ⟨d2, os⟩ := r1
        have := ih d1 (Reachable.step fuel c hd hall.1 hc) hall.2 _ hrun
        simp only [hc, hrun, Res.ok.injEq] at hr
        rw [← hr]
        exact this
      | assert_failed => simp [hc, hrun] at hr
      | undefined => simp [hc, hrun] at hr
      | out_of_fuel => simp [hc, hrun] at hr
    | assert_failed => simp [hc] at hr
    | undefined => simp [hc] at hr
    | out_of_fuel => simp [hc] at hr

theorem run_fill16 : ring_deque.run 2 fill16 fresh = Res.ok (full16, List.replicate 16 Obs.unit) := by
  decide

theorem reachable_full16 : Reachable Call.is_push_pop full16 :=
  reachable_of_run Call.is_push_pop 2 fill16 fresh Reachable.fresh (by decide) _ run_fill16

theorem reachable_drained : Reachable (fun _ => true) drained :=
  reachable_of_run (fun _ => true) 2 [Call.push_back 1, Call.pop_front] fresh Reachable.fresh
    (by decide) (drained, [Obs.unit, Obs.bool true]) (by decide)

theorem reachable_wrapped : Reachable (fun _ => true) wrapped :=
  reachable_of_run (fun _ => true) 2 [Call.push_front 1, Call.push_back 2] fresh Reachable.fresh
    (by decide) (wrapped, [Obs.unit, Obs.unit]) (by decide)

/-- C4: on the sixteen calls `push_back(1..16)` followed by `pop_front()` the results of
`ring_deque` are not those of the reference deque: the pop on the full buffer returns false
where the reference returns true.  After `push_front(1)`, `back()` hands back a reference
outside the storage where the reference deque yields the element. -/
theorem ring_deque_differs_from_reference :
    (ring_deque.run 2 (fill16 ++ [Call.pop_front]) fresh).get?.map Prod.snd
        = some (List.replicate 16 Obs.unit ++ [Obs.bool false]) ∧
      (ref_deque.run (fill16 ++ [Call.pop_front]) []).2
        = List.replicate 16 Obs.unit ++ [Obs.bool true] ∧
      (ring_deque.run 2 [Call.push_front 1, Call.back] fresh).get?.map Prod.snd
        = some [Obs.unit, Obs.invalid (2 ^ 64 - 1)] ∧
      (ref_deque.run [Call.push_front 1, Call.back] ([] : List Nat)).2
        = [Obs.unit, Obs.elem (some 1)] := by
  refine ⟨by decide, by decide, by decide, by decide⟩


/-- C5: growth preserves order.  On a buffer reached by pushes and pops, with front-to-back
content `xs`, `push_back(x)` returns with content `xs ++ [x]` and `push_front(x)` returns
with content `x :: xs`.  When the buffer is full the capacity becomes `_cap * 3 / 2` and the
elements of `xs` sit at the indices `0 .. |xs| - 1` of the new storage, in order; when it is
not full the capacity is unchanged. -/
theorem growth_preserves_order (d : ring_deque α) (hd : Reachable Call.is_push_pop d) (x : α)
    (fuel : Nat) :
    ∃ (xs : List α) (d1 d2 : ring_deque α),
      d.content = xs.map some ∧
      d.push_back (fuel + 2) x = Res.ok d1 ∧ d.push_front (fuel + 2) x = Res.ok d2 ∧
      d1.content = (xs ++ [x]).map some ∧ d2.content = (x :: xs).map some ∧
      (d._size = d._cap →
        d1._cap = d._cap * 3 / 2 ∧ d2._cap = d._cap * 3 / 2 ∧
        d1.data.take xs.length = xs.map some ∧ d2.data.take xs.length = xs.map some) ∧
      (d._size < d._cap → d1._cap = d._cap ∧ d2._cap = d._cap) := by
  obtain ⟨hw, xs, hxs⟩ := reachable_inv _ d hd
  have hcap := reachable_cap Call.is_push_pop (fun _ => rfl) d hd
  have hc2 : d._size < d._cap ∨ 2 ≤ d._cap := Or.inr (by unfold INIT_CAP at hcap; omega)
  obtain ⟨d1, e1⟩ := push_back_returns d hw hc2 fuel x
  obtain ⟨d2, e2⟩ := push_front_returns d hw hc2 fuel x
  obtain ⟨_, b2, _, b4⟩ := push_back_spec _ d hw x d1 e1
  obtain ⟨_, f2, _, f4⟩ := push_front_spec _ d hw x d2 e2
  have hlen : xs.length = d._size := by
    have := congrArg List.length hxs
    rw [content_length, List.length_map] at this
    exact this.symm
  refine ⟨xs, d1, d2, hxs, e1, e2, by rw [b2, hxs]; simp, by rw [f2, hxs]; simp, ?_, ?_⟩
  · intro hfull
    rw [if_neg (by omega)] at b4 f4
    rw [hlen, ← hxs]
    exact ⟨b4.1, f4.1, b4.2, f4.2⟩
  · intro hlt
    rw [if_pos hlt] at b4 f4
    exact ⟨b4, f4⟩

/-- Instance of C5 at the full buffer `full16`: both pushes grow it to capacity 24 and keep
1..16 at the indices 0..15. -/
theorem growth_preserves_order_full16 :
    Reachable Call.is_push_pop full16 ∧
    ∃ (xs : List Nat) (d1 d2 : ring_deque Nat),
      full16.content = xs.map some ∧
      full16.push_back 2 17 = Res.ok d1 ∧ full16.push_front 2 17 = Res.ok d2 ∧
      d1.content = (xs ++ [17]).map some ∧ d2.content = (17 :: xs).map some ∧
      (full16._size = full16._cap →
        d1._cap = full16._cap * 3 / 2 ∧ d2._cap = full16._cap * 3 / 2 ∧
        d1.data.take xs.length = xs.map some ∧ d2.data.take xs.length = xs.map some) ∧
      (full16._size < full16._cap → d1._cap = full16._cap ∧ d2._cap = full16._cap) :=
  ⟨reachable_full16, growth_preserves_order full16 reachable_full16 17 0⟩

/-- C6: sixteen `push_back` calls fill a fresh buffer (`size() = 16 = _cap`, both cursors at
0); `pop_front()` and `pop_back()` then return false and leave the sixteen elements in
place. -/
theorem pop_on_full_buffer_returns_false :
    Reachable Call.is_push_pop full16 ∧ full16.size = 16 ∧ full16._cap = 16 ∧
      full16.bidx = full16.eidx ∧
      full16.pop_front = (false, full16) ∧ full16.pop_back = (false, full16) := by
  refine ⟨reachable_full16, by decide, by decide, by decide, by decide, by decide⟩

/-- C7: after `push_front(1)` on a fresh buffer the end cursor is 0 and `back()` refers to
the index `2 ^ 64 - 1`, outside the storage of 16 cells, although the buffer holds the
element 1; the same happens on the buffer filled by sixteen `push_back` calls. -/
theorem back_with_end_cursor_zero :
    fresh.push_front 1 1 = Res.ok pushed_front ∧
      pushed_front.size = 1 ∧ pushed_front.content = [some 1] ∧ pushed_front.eidx = 0 ∧
      pushed_front.back = Access.wild (2 ^ 64 - 1) ∧ pushed_front._cap = 16 ∧
      full16.eidx = 0 ∧ full16.back = Access.wild (2 ^ 64 - 1) := by
  refine ⟨by decide, by decide, by decide, by decide, by decide, by decide, by decide, by decide⟩

/-- C8: on a reachable buffer with `size() = 0`, `front()` and `back()` return an empty
optional, `pop_front()` and `pop_back()` return false, and the buffer is left as it was. -/
theorem empty_buffer_operations (d : ring_deque α) (hd : Reachable (fun _ => true) d)
    (h0 : d.size = 0) (fuel : Nat) :
    d.front = Access.absent ∧ d.back = Access.absent ∧
      d.pop_front = (false, d) ∧ d.pop_back = (false, d) ∧
      d.call fuel Call.front = Res.ok d ∧ d.call fuel Call.back = Res.ok d := by
  have hw := (reachable_inv _ d hd).1
  have h0 : d._size = 0 := h0
  have he : d.bidx = d.eidx := (cursors_eq_iff d hw).mpr (Or.inl h0)
  refine ⟨by simp [front, h0], by simp [back, h0], pop_front_cannot d he, pop_back_cannot d he,
    rfl, rfl⟩

/-- Instance of C8 at the buffer drained by `push_back(1); pop_front()`. -/
theorem empty_buffer_operations_drained :
    Reachable (fun _ => true) drained ∧ drained.size = 0 ∧
      drained.front = Access.absent ∧ drained.back = Access.absent ∧
      drained.pop_front = (false, drained) ∧ drained.pop_back = (false, drained) ∧
      drained.call 0 Call.front = Res.ok drained ∧ drained.call 0 Call.back = Res.ok drained :=
  ⟨reachable_drained, rfl, empty_buffer_operations drained reachable_drained rfl 0⟩

/-- C9: on a reachable buffer `reserve(n)` fails its assertion exactly when `n <= size()`;
for `n > size()` it returns, with the size and the front-to-back content unchanged, the
capacity `n`, the begin cursor 0 and the elements at the indices `0 .. size() - 1`. -/
theorem reserve_contract (d : ring_deque α) (hd : Reachable (fun _ => true) d) (n : Nat) :
    (d.reserve n = Res.assert_failed ↔ n ≤ d.size) ∧
      (n > d.size → ∃ d1, d.reserve n = Res.ok d1 ∧ d1.size = d.size ∧
        d1.content = d.content ∧ d1._cap = n ∧ d1.bidx = 0 ∧
        d1.data.take d.size = d.content) := by
  have hw := (reachable_inv _ d hd).1
  constructor
  · constructor
    · intro hf
      by_contra hn
      obtain ⟨d1, e, _⟩ := reserve_ok d hw n (Nat.not_le.mp hn)
      rw [e] at hf
      cases hf
    · exact reserve_fails d n
  · intro hn
    obtain ⟨d1, e, _, hc, hcap, hs, hb, _, htk⟩ := reserve_ok d hw n hn
    exact ⟨d1, e, hs, hc, hcap, hb, htk⟩

/-- Instance of C9 at the buffer `wrapped` (content 1, 2 stored at the indices 15 and 0) with
`n = 3`, below the capacity 16. -/
theorem reserve_contract_wrapped :
    Reachable (fun _ => true) wrapped ∧
      (wrapped.reserve 3 = Res.assert_failed ↔ 3 ≤ wrapped.size) ∧
      (3 > wrapped.size → ∃ d1, wrapped.reserve 3 = Res.ok d1 ∧ d1.size = wrapped.size ∧
        d1.content = wrapped.content ∧ d1._cap = 3 ∧ d1.bidx = 0 ∧
        d1.data.take wrapped.size = wrapped.content) :=
  ⟨reachable_wrapped, reserve_contract wrapped reachable_wrapped 3⟩

end ring_deque

/-! ## Theorems: reader_writer_store -/

namespace ring_deque
variable {α : Type}

/-- The element `front()` refers to is the first one of the content. -/
theorem front_present (d : ring_deque α) (h : WF d) (i : Nat) (p : α)
    (hf : d.front = Access.present i p) : d.content.head? = some (some p) := by
  unfold front at hf
  by_cases hs : d._size > 0
  · rw [if_pos hs] at hf
    unfold access at hf
    rw [List.head?_eq_getElem?, content_getElem?, if_pos hs, Nat.add_zero,
      Nat.mod_eq_of_lt h.bidx_lt, List.getD_eq_getElem?_getD]
    split at hf
    · next x hx =>
      cases hf
      rw [hx]; rfl
    · cases hf
  · rw [if_neg hs] at hf
    cases hf

theorem pop_front_content_subset (d : ring_deque α) (h : WF d) (c : Option α)
    (hc : c ∈ d.pop_front.2.content) : c ∈ d.content := by
  rcases (pop_front_inv d h).2.2 with h3 | h3
  · rw [h3] at hc
    exact List.mem_of_mem_tail hc
  · rw [h3] at hc
    exact hc

end ring_deque

namespace reader_writer_store
variable {T : Type}

theorem valid_slot_mono {n m p : Nat} (h : valid_slot n p) (hnm : n ≤ m) : valid_slot m p :=
  ⟨h.1, h.2.1, Nat.le_trans h.2.2 hnm⟩

/-- What the trim loop of `write` preserves when it returns. -/
theorem trim_inv : ∀ (fuel : Nat) (s s1 : reader_writer_store T), trim fuel s = Res.ok s1 →
    ring_deque.WF s.gc_queue →
    ring_deque.WF s1.gc_queue ∧ (∀ c ∈ s1.gc_queue.content, c ∈ s.gc_queue.content) ∧
      s1.heap.length = s.heap.length ∧ s1.cur = s.cur ∧ s1.num_readers = s.num_readers ∧
      s1.write_lock = s.write_lock ∧ s1.views = s.views ∧ s1.observed = s.observed ∧
      s1.recycled = s.recycled := by
  intro fuel
  induction fuel with
  | zero =>
    intro s s1 h hw
    unfold trim at h
    split at h
    · cases h
    · cases h
      exact ⟨hw, fun _ hc => hc, rfl, rfl, rfl, rfl, rfl, rfl, rfl⟩
  | succ f ih =>
    intro s s1 h hw
    unfold trim at h
    split at h
    · split at h
      · next i p hf =>
        obtain ⟨h1, h2, h3, h4, h5, h6, h7, h8, h9⟩ := ih _ s1 h (ring_deque.pop_front_inv _ hw).1
        refine ⟨h1, ?_, ?_, h4, h5, h6, h7, h8, h9⟩
        · intro c hc
          exact ring_deque.pop_front_content_subset _ hw c (h2 c hc)
        · rw [h3]
          simp [delete]
      · cases h
    · cases h
      exact ⟨hw, fun _ hc => hc, rfl, rfl, rfl, rfl, rfl, rfl, rfl⟩


theorem getD_set_self (l : List (Option T)) (i : Nat) (v : Option T) (hi : i < l.length) :
    (l.set i v).getD i none = v := by
  simp [List.getD_eq_getElem?_getD, List.getElem?_set, hi]

theorem slot_index_lt {n p : Nat} (h : valid_slot n p) : slot_index p < n := by
  obtain ⟨_, h2, h3⟩ := h
  unfold slot_index
  omega

/-- What obtaining the destination slot does when it returns. -/
theorem write_dest_spec (fuel : Nat) (s : reader_writer_store T) (v : T) (p : Nat)
    (s2 : reader_writer_store T) (h : write_dest fuel s v = Res.ok (p, s2))
    (hw : ring_deque.WF s.gc_queue)
    (hq : ∀ c ∈ s.gc_queue.content, ∃ q, c = some q ∧ valid_slot s.heap.length q) :
    ring_deque.WF s2.gc_queue ∧
      (∀ c ∈ s2.gc_queue.content, ∃ q, c = some q ∧ valid_slot s2.heap.length q) ∧
      valid_slot s2.heap.length p ∧ s2.heap.getD (slot_index p) none = some v ∧
      s.heap.length ≤ s2.heap.length ∧ s2.cur = s.cur ∧ s2.num_readers = s.num_readers ∧
      s2.views = s.views ∧ s2.write_lock = s.write_lock ∧ s2.observed = s.observed := by
  unfold write_dest at h
  split at h
  · -- a fresh slot
    simp only [alloc] at h
    split at h
    · cases h
      refine ⟨hw, ?_, ?_, ?_, ?_, rfl, rfl, rfl, rfl, rfl⟩
      · intro c hc
        obtain ⟨q, e, hv⟩ := hq c hc
        exact ⟨q, e, valid_slot_mono hv (by simp)⟩
      · unfold valid_slot slot_addr
        simp only [List.length_append, List.length_singleton]
        omega
      · have e : slot_index (slot_addr s.heap.length) = s.heap.length := by
          unfold slot_index slot_addr
          omega
        show (s.heap ++ [some v]).getD (slot_index (slot_addr s.heap.length)) none = some v
        rw [e]
        simp [List.getD_eq_getElem?_getD]
      · simp
    · cases h
  · -- a recycled slot
    split at h
    · next s1 ht =>
      obtain ⟨h1, h2, h3, h4, h5, h6, h7, h8, _⟩ := trim_inv fuel s s1 ht hw
      split at h
      · next i q hf =>
        cases h
        have hmem : some p ∈ s1.gc_queue.content := by
          have := ring_deque.front_present _ h1 i p hf
          rw [List.head?_eq_getElem?] at this
          exact List.getElem?_mem this
        obtain ⟨q, e, hv⟩ := hq _ (h2 _ hmem)
        cases e
        have hlen : (s1.heap.set (slot_index p) (some v)).length = s.heap.length := by
          simp [h3]
        refine ⟨(ring_deque.pop_front_inv _ h1).1, ?_, ?_, ?_, ?_, h4, h5, h7, h6, h8⟩
        · intro c hc
          obtain ⟨q, e, hv2⟩ := hq c (h2 c (ring_deque.pop_front_content_subset _ h1 c hc))
          exact ⟨q, e, by show valid_slot (s1.heap.set _ _).length q; rw [hlen]; exact hv2⟩
        · show valid_slot (s1.heap.set _ _).length p
          rw [hlen]; exact hv
        · show (s1.heap.set (slot_index p) (some v)).getD (slot_index p) none = some v
          exact getD_set_self _ _ _ (by rw [h3]; exact slot_index_lt hv)
        · show s.heap.length ≤ (s1.heap.set _ _).length
          rw [hlen]
      · cases h
    · cases h
    · cases h
    · cases h


/-- What retiring the old slot does when it returns. -/
theorem write_retire_spec (fuel : Nat) (s : reader_writer_store T) (p : Nat)
    (s2 : reader_writer_store T) (h : write_retire fuel s p = Res.ok s2)
    (hw : ring_deque.WF s.gc_queue) :
    ring_deque.WF s2.gc_queue ∧
      (s2.gc_queue.content = some (ptr_mask s.cur) :: s.gc_queue.content ∨
        s2.gc_queue.content = s.gc_queue.content ++ [some (ptr_mask s.cur)]) ∧
      s2.cur = p ∧ s2.observed = false ∧ s2.heap = s.heap ∧ s2.num_readers = s.num_readers ∧
      s2.views = s.views ∧ s2.write_lock = s.write_lock ∧ s2.freed = s.freed ∧
      s2.recycled = s.recycled := by
  unfold write_retire at h
  simp only at h
  by_cases hb : read_bit s.cur = 0
  · rw [if_pos hb] at h
    cases hp : s.gc_queue.push_front fuel (ptr_mask s.cur) with
    | ok q =>
      rw [hp] at h
      cases h
      obtain ⟨h1, h2, _⟩ := ring_deque.push_front_spec fuel _ hw _ q hp
      exact ⟨h1, Or.inl h2, rfl, rfl, rfl, rfl, rfl, rfl, rfl, rfl⟩
    | assert_failed => rw [hp] at h; cases h
    | undefined => rw [hp] at h; cases h
    | out_of_fuel => rw [hp] at h; cases h
  · rw [if_neg hb] at h
    cases hp : s.gc_queue.push_back fuel (ptr_mask s.cur) with
    | ok q =>
      rw [hp] at h
      cases h
      obtain ⟨h1, h2, _⟩ := ring_deque.push_back_spec fuel _ hw _ q hp
      exact ⟨h1, Or.inr h2, rfl, rfl, rfl, rfl, rfl, rfl, rfl, rfl⟩
    | assert_failed => rw [hp] at h; cases h
    | undefined => rw [hp] at h; cases h
    | out_of_fuel => rw [hp] at h; cases h

/-- A `write` that returns keeps the invariant, publishes an even address whose slot holds
the written value, and clears the observed flag. -/
theorem write_spec (fuel : Nat) (s : reader_writer_store T) (v : T)
    (s1 : reader_writer_store T) (h : s.write fuel v = Res.ok s1) (hi : Inv s) :
    Inv s1 ∧ read_bit s1.cur = 0 ∧ s1.load s1.cur = some v ∧ s1.observed = false ∧
      s1.num_readers = s.num_readers ∧ s1.views = s.views := by
  unfold write at h
  rw [hi.lock] at h
  simp only [Bool.false_eq_true, if_false] at h
  cases hd : write_dest fuel { s with write_lock := true } v with
  | ok r =>
    obtain ⟨p, s2⟩ := r
    rw [hd] at h
    simp only at h
    obtain ⟨d1, d2, d3, d4, d5, d6, d7, d8, d9, d10⟩ :=
      write_dest_spec fuel _ v p s2 hd hi.wf hi.queue_valid
    cases hr : write_retire fuel s2 p with
    | ok s3 =>
      rw [hr] at h
      cases h
      obtain ⟨r1, r2, r3, r4, r5, r6, r7, r8, _, _⟩ := write_retire_spec fuel s2 p s3 hr d1
      have hcurv : valid_slot s2.heap.length (ptr_mask s2.cur) := by
        rw [d6]
        exact valid_slot_mono hi.cur_valid d5
      have hp0 : p % 2 = 0 := d3.1
      have hmask : ptr_mask p = p := by unfold ptr_mask; omega
      refine ⟨⟨r1, ?_, ?_, ?_, rfl⟩, ?_, ?_, r4, ?_, ?_⟩
      · intro c hc
        show ∃ q, c = some q ∧ valid_slot s3.heap.length q
        rw [r5]
        have hc : c ∈ s3.gc_queue.content := hc
        rcases r2 with e | e
        · rw [e, List.mem_cons] at hc
          rcases hc with hc | hc
          · exact ⟨_, hc, hcurv⟩
          · exact d2 c hc
        · rw [e, List.mem_append, List.mem_singleton] at hc
          rcases hc with hc | hc
          · exact d2 c hc
          · exact ⟨_, hc, hcurv⟩
      · show valid_slot s3.heap.length (ptr_mask s3.cur)
        rw [r5, r3, hmask]
        exact d3
      · show s3.observed = true ↔ read_bit s3.cur = 1
        rw [r4, r3]
        unfold read_bit
        constructor
        · intro hc; cases hc
        · intro hc; omega
      · show read_bit s3.cur = 0
        rw [r3]; exact hp0
      · show load { s3 with write_lock := false } s3.cur = some v
        unfold load
        simp only
        rw [r3, r5, if_pos ⟨hp0, by have := d3.2.1; omega⟩]
        exact d4
      · show s3.num_readers = s.num_readers
        rw [r6, d7]
      · show s3.views = s.views
        rw [r7, d8]
    | assert_failed => rw [hr] at h; cases h
    | undefined => rw [hr] at h; cases h
    | out_of_fuel => rw [hr] at h; cases h
  | assert_failed => rw [hd] at h; cases h
  | undefined => rw [hd] at h; cases h
  | out_of_fuel => rw [hd] at h; cases h

theorem inv_construct (init : T) : Inv (construct init) := by
  refine ⟨ring_deque.wf_fresh, ?_, ?_, ?_, rfl⟩
  · intro c hc
    have : (construct init).gc_queue.content = [] := ring_deque.content_fresh
    rw [this] at hc
    cases hc
  · show valid_slot 1 (ptr_mask (slot_addr 0))
    unfold valid_slot ptr_mask slot_addr
    omega
  · show false = true ↔ read_bit (slot_addr 0) = 1
    unfold read_bit slot_addr
    constructor
    · intro hc; cases hc
    · intro hc; omega

theorem ptr_mask_set_read_bit (p : Nat) : ptr_mask (set_read_bit p) = ptr_mask p := by
  unfold ptr_mask set_read_bit READ_BIT
  omega

theorem read_bit_set_read_bit (p : Nat) : read_bit (set_read_bit p) = 1 := by
  unfold read_bit set_read_bit READ_BIT
  omega

/-- Every whole operation that returns keeps the invariant. -/
theorem step_inv (fuel : Nat) (s s1 : reader_writer_store T) (op : Op T)
    (h : s.step fuel op = Res.ok s1) (hi : Inv s) : Inv s1 := by
  cases op with
  | get_view =>
    cases h
    exact ⟨hi.wf, hi.queue_valid, hi.cur_valid, hi.obs, hi.lock⟩
  | release i =>
    simp only [step, release] at h
    split at h
    · cases h
      exact ⟨hi.wf, hi.queue_valid, hi.cur_valid, hi.obs, hi.lock⟩
    · cases h
  | read i =>
    simp only [step, read] at h
    split at h
    · cases h
      refine ⟨hi.wf, hi.queue_valid, ?_, ?_, hi.lock⟩
      · show valid_slot s.heap.length (ptr_mask (set_read_bit s.cur))
        rw [ptr_mask_set_read_bit]
        exact hi.cur_valid
      · show true = true ↔ read_bit (set_read_bit s.cur) = 1
        simp [read_bit_set_read_bit]
    · cases h
  | write v => exact (write_spec fuel s v s1 h hi).1

/-- The invariant holds in every reachable state. -/
theorem store_reachable_inv (s : reader_writer_store T) (h : Reachable s) : Inv s := by
  induction h with
  | construct init => exact inv_construct init
  | step fuel op _ hs ih => exact step_inv fuel _ _ op hs ih

/-- A run that returns ends in a reachable state. -/
theorem store_reachable_of_run (fuel : Nat) : ∀ (ops : List (Op T)) (s s1 : reader_writer_store T),
    Reachable s → run fuel ops s = Res.ok s1 → Reachable s1 := by
  intro ops
  induction ops with
  | nil =>
    intro s s1 hs h
    cases h
    exact hs
  | cons op ops ih =>
    intro s s1 hs h
    unfold run at h
    cases hst : s.step fuel op with
    | ok s2 =>
      rw [hst] at h
      exact ih s2 s1 (Reachable.step fuel op hs hst) h
    | assert_failed => rw [hst] at h; cases h
    | undefined => rw [hst] at h; cases h
    | out_of_fuel => rw [hst] at h; cases h

/-- Operations other than `write` leave the heap and the address in `cur` alone. -/
theorem run_no_write (fuel : Nat) : ∀ (ops : List (Op T)) (s s1 : reader_writer_store T),
    ops.all (fun o => !is_write o) = true → run fuel ops s = Res.ok s1 →
    s1.heap = s.heap ∧ ptr_mask s1.cur = ptr_mask s.cur := by
  intro ops
  induction ops with
  | nil =>
    intro s s1 _ h
    cases h
    exact ⟨rfl, rfl⟩
  | cons op ops ih =>
    intro s s1 hall h
    rw [List.all_cons, Bool.and_eq_true] at hall
    unfold run at h
    cases hst : s.step fuel op with
    | ok s2 =>
      rw [hst] at h
      obtain ⟨h1, h2⟩ := ih s2 s1 hall.2 h
      have : s2.heap = s.heap ∧ ptr_mask s2.cur = ptr_mask s.cur := by
        cases op with
        | get_view => cases hst; exact ⟨rfl, rfl⟩
        | release i =>
          simp only [step, release] at hst
          split at hst
          · cases hst; exact ⟨rfl, rfl⟩
          · cases hst
        | read i =>
          simp only [step, read] at hst
          split at hst
          · cases hst; exact ⟨rfl, ptr_mask_set_read_bit _⟩
          · cases hst
        | write v => simp [is_write] at hall
      exact ⟨h1.trans this.1, h2.trans this.2⟩
    | assert_failed => rw [hst] at h; cases h
    | undefined => rw [hst] at h; cases h
    | out_of_fuel => rw [hst] at h; cases h

/-- C1: in the sequential model a read yields the last written value.  Let `s0` be a freshly
constructed store with initial value `v`, or the state in which a `write(v)` on a reachable
store returned.  After any sequence of `get_view`, view release and read steps from `s0`
(no `write` among them), a read yields `v`. -/
theorem read_yields_latest_value (s0 : reader_writer_store T) (v : T)
    (h0 : s0 = construct v ∨ ∃ s fuel, Reachable s ∧ s.write fuel v = Res.ok s0)
    (ops : List (Op T)) (hops : ops.all (fun o => !is_write o) = true) (fuel : Nat)
    (s1 : reader_writer_store T) (hrun : run fuel ops s0 = Res.ok s1) :
    s1.read_value = some v := by
  obtain ⟨hh, hc⟩ := run_no_write fuel ops s0 s1 hops hrun
  have key : s0.load (ptr_mask s0.cur) = some v := by
    rcases h0 with h0 | ⟨s, f, hs, hw⟩
    · subst h0
      simp [construct, load, ptr_mask, slot_addr, slot_index]
    · obtain ⟨_, hb, hl, _⟩ := write_spec f s v s0 hw (store_reachable_inv s hs)
      have : ptr_mask s0.cur = s0.cur := by
        unfold read_bit at hb
        unfold ptr_mask
        omega
      rw [this]
      exact hl
  unfold read_value read_ref
  rw [ptr_mask_set_read_bit, hc]
  unfold load at key ⊢
  rw [hh]
  exact key


/-- Instance of C1: after `write(5)` on a fresh store, then `get_view` and a read, a read
yields 5. -/
theorem read_yields_latest_value_written :
    (construct 0).write 2 5 = Res.ok written ∧
      run 0 [Op.get_view, Op.read 0] written = Res.ok written_read ∧
      written_read.read_value = some 5 :=
  ⟨by decide, by decide,
    read_yields_latest_value written 5
      (Or.inr ⟨construct 0, 2, Reachable.construct 0, by decide⟩)
      [Op.get_view, Op.read 0] (by decide) 0 written_read (by decide)⟩

theorem reachable_stalled : Reachable stalled :=
  store_reachable_of_run 2 stalled_trace (construct 0) stalled (Reachable.construct 0) (by decide)

/-- C2: after `stalled_trace` the live view 0 holds the slot at address 2 (two views are
alive, three slots are queued, nothing was recycled or freed so far), and the next `write(4)`
destroys that slot and reconstructs it in place with the value 4 while view 0 is still alive
and still holds it. -/
theorem stalled_reader_slot_recycled :
    run 2 stalled_trace (construct 0) = Res.ok stalled ∧
      stalled.live_view 0 = true ∧ stalled.views.getD 0 View.released = View.holds 2 ∧
      stalled.num_readers = 2 ∧ stalled.gc_queue.size = 3 ∧ stalled.load 2 = some 0 ∧
      (stalled.write 2 4).get?.map (fun s => (s.views, s.recycled, s.freed, s.load 2))
        = some ([View.holds 2, View.holds 8], [2], [], some 4) := by
  refine ⟨by decide, by decide, by decide, by decide, by decide, by decide, by decide⟩


/-- The slots deleted by the trim loop were in the queue, and the queue was longer than the
reader count plus two. -/
theorem trim_freed : ∀ (fuel : Nat) (s s1 : reader_writer_store T), trim fuel s = Res.ok s1 →
    ring_deque.WF s.gc_queue →
    ∃ fr, s1.freed = s.freed ++ fr ∧
      ∀ p ∈ fr, some p ∈ s.gc_queue.content ∧ s.num_readers + 2 < s.gc_queue.size := by
  intro fuel
  induction fuel with
  | zero =>
    intro s s1 h _
    unfold trim at h
    split at h
    · cases h
    · cases h
      exact ⟨[], by simp, fun _ hp => by cases hp⟩
  | succ f ih =>
    intro s s1 h hw
    unfold trim at h
    split at h
    · next hcond =>
      split at h
      · next i p hf =>
        obtain ⟨fr, e, hfr⟩ := ih _ s1 h (ring_deque.pop_front_inv _ hw).1
        have hp : some p ∈ s.gc_queue.content := by
          have := ring_deque.front_present _ hw i p hf
          rw [List.head?_eq_getElem?] at this
          exact List.getElem?_mem this
        refine ⟨p :: fr, ?_, ?_⟩
        · rw [e]
          simp [delete]
        · intro q hq
          rw [List.mem_cons] at hq
          rcases hq with hq | hq
          · rw [hq]; exact ⟨hp, hcond⟩
          · exact ⟨ring_deque.pop_front_content_subset _ hw _ (hfr q hq).1, hcond⟩
      · cases h
    · cases h
      exact ⟨[], by simp, fun _ hp => by cases hp⟩

/-- The slots reclaimed while obtaining the destination slot. -/
theorem write_dest_logs (fuel : Nat) (s : reader_writer_store T) (v : T) (p : Nat)
    (s2 : reader_writer_store T) (h : write_dest fuel s v = Res.ok (p, s2))
    (hw : ring_deque.WF s.gc_queue) :
    ∃ fr rc, s2.freed = s.freed ++ fr ∧ s2.recycled = s.recycled ++ rc ∧
      (∀ q ∈ fr, some q ∈ s.gc_queue.content ∧ s.num_readers + 2 < s.gc_queue.size) ∧
      (∀ q ∈ rc, some q ∈ s.gc_queue.content ∧ s.num_readers < s.gc_queue.size) := by
  unfold write_dest at h
  split at h
  · simp only [alloc] at h
    split at h
    · cases h
      refine ⟨[], [], ?_, ?_, ?_, ?_⟩
      · simp
      · simp
      · intro q hq; cases hq
      · intro q hq; cases hq
    · cases h
  · next hcond =>
    split at h
    · next s1 ht =>
      obtain ⟨h1, h2, _, _, _, _, _, _, h9⟩ := trim_inv fuel s s1 ht hw
      obtain ⟨fr, e, hfr⟩ := trim_freed fuel s s1 ht hw
      split at h
      · next i q hf =>
        cases h
        have hmem : some p ∈ s1.gc_queue.content := by
          have := ring_deque.front_present _ h1 i p hf
          rw [List.head?_eq_getElem?] at this
          exact List.getElem?_mem this
        refine ⟨fr, [p], e, ?_, hfr, ?_⟩
        · show s1.recycled ++ [p] = s.recycled ++ [p]
          rw [h9]
        · intro q hq
          rw [List.mem_singleton] at hq
          rw [hq]
          exact ⟨h2 _ hmem, Nat.not_le.mp hcond⟩
      · cases h
    · cases h
    · cases h
    · cases h

/-- The size rule of `write`: a `write` on a reachable store leaves the views as they are,
and each slot it frees or recycles was in the retirement queue when the write began; a slot
is freed only if the queue was longer than the live-view count plus two, and recycled only
if the queue was longer than the live-view count.  When the queue holds at most as many
slots as there are live views, the write frees and recycles nothing. -/
theorem write_reclaims_by_size_rule (s : reader_writer_store T) (hs : Reachable s) (fuel : Nat)
    (v : T) (s1 : reader_writer_store T) (hw : s.write fuel v = Res.ok s1) :
    s1.views = s.views ∧
    ∃ fr rc, s1.freed = s.freed ++ fr ∧ s1.recycled = s.recycled ++ rc ∧
      (∀ p ∈ fr, some p ∈ s.gc_queue.content ∧ s.num_readers + 2 < s.gc_queue.size) ∧
      (∀ p ∈ rc, some p ∈ s.gc_queue.content ∧ s.num_readers < s.gc_queue.size) ∧
      (s.gc_queue.size ≤ s.num_readers → fr = [] ∧ rc = []) := by
  have hi := store_reachable_inv s hs
  refine ⟨(write_spec fuel s v s1 hw hi).2.2.2.2.2, ?_⟩
  unfold write at hw
  rw [hi.lock] at hw
  simp only [Bool.false_eq_true, if_false] at hw
  cases hd : write_dest fuel { s with write_lock := true } v with
  | ok r =>
    obtain ⟨p, s2⟩ := r
    rw [hd] at hw
    simp only at hw
    obtain ⟨fr, rc, e1, e2, hfr, hrc⟩ := write_dest_logs fuel _ v p s2 hd hi.wf
    obtain ⟨d1, _⟩ := write_dest_spec fuel _ v p s2 hd hi.wf hi.queue_valid
    cases hr : write_retire fuel s2 p with
    | ok s3 =>
      rw [hr] at hw
      cases hw
      obtain ⟨_, _, _, _, _, _, _, _, r9, r10⟩ := write_retire_spec fuel s2 p s3 hr d1
      refine ⟨fr, rc, by show s3.freed = _; rw [r9, e1], by show s3.recycled = _; rw [r10, e2],
        hfr, hrc, ?_⟩
      intro hle
      constructor
      · apply List.eq_nil_iff_forall_not_mem.mpr
        intro q hq
        have := (hfr q hq).2
        have hle : s.gc_queue.size ≤ s.num_readers := hle
        have this : s.num_readers + 2 < s.gc_queue.size := this
        omega
      · apply List.eq_nil_iff_forall_not_mem.mpr
        intro q hq
        have := (hrc q hq).2
        have hle : s.gc_queue.size ≤ s.num_readers := hle
        have this : s.num_readers < s.gc_queue.size := this
        omega
    | assert_failed => rw [hr] at hw; cases hw
    | undefined => rw [hr] at hw; cases hw
    | out_of_fuel => rw [hr] at hw; cases hw
  | assert_failed => rw [hd] at hw; cases hw
  | undefined => rw [hd] at hw; cases hw
  | out_of_fuel => rw [hd] at hw; cases hw

/-- The size rule at `stalled` and `write(4)`. -/
theorem write_reclaims_by_size_rule_stalled :
    Reachable stalled ∧ stalled.write 2 4 = Res.ok stalled_next ∧
    stalled_next.views = stalled.views ∧
    ∃ fr rc, stalled_next.freed = stalled.freed ++ fr ∧
      stalled_next.recycled = stalled.recycled ++ rc ∧
      (∀ p ∈ fr, some p ∈ stalled.gc_queue.content ∧
        stalled.num_readers + 2 < stalled.gc_queue.size) ∧
      (∀ p ∈ rc, some p ∈ stalled.gc_queue.content ∧
        stalled.num_readers < stalled.gc_queue.size) ∧
      (stalled.gc_queue.size ≤ stalled.num_readers → fr = [] ∧ rc = []) :=
  ⟨reachable_stalled, by decide,
    write_reclaims_by_size_rule stalled reachable_stalled 2 4 stalled_next (by decide)⟩

/-- With equal cursors `pop_front` removes nothing, so the trim loop runs out of any fuel. -/
theorem trim_stuck : ∀ (fuel : Nat) (s : reader_writer_store T),
    s.gc_queue.bidx = s.gc_queue.eidx → s.gc_queue.size > s.num_readers + 2 →
    (∃ i p, s.gc_queue.front = Access.present i p) → trim fuel s = Res.out_of_fuel := by
  intro fuel
  induction fuel with
  | zero =>
    intro s _ hc _
    unfold trim
    rw [if_pos hc]
  | succ f ih =>
    intro s he hc hf
    obtain ⟨i, p, hfp⟩ := hf
    unfold trim
    rw [if_pos hc, hfp]
    simp only
    rw [ring_deque.pop_front_cannot _ he]
    exact ih _ he hc ⟨i, p, hfp⟩

/-- C3: `jam_trace` leaves the store in the state `jammed`, whose retirement queue is full
(sixteen slots, both cursors 0) while no view is alive.  There `pop_front` returns false and
removes nothing, the trim loop of `write` deletes the front slot again on every iteration
without shrinking the queue, and `write(99)` does not return whatever the fuel. -/
theorem write_never_returns_when_queue_full :
    run 2 jam_trace (construct 0) = Res.ok jammed ∧
      jammed.gc_queue.size = 16 ∧ jammed.num_readers = 0 ∧
      jammed.gc_queue.pop_front = (false, jammed.gc_queue) ∧
      (trim 3 jammed) = Res.out_of_fuel ∧
      ∀ fuel, jammed.write fuel 99 = Res.out_of_fuel := by
  refine ⟨by decide, by decide, by decide, by decide, by decide, ?_⟩
  intro fuel
  have h := trim_stuck fuel { jammed with write_lock := true } (by decide) (by decide)
    ⟨0, 32, by decide⟩
  unfold write write_dest
  rw [show jammed.write_lock = false from rfl]
  simp only [Bool.false_eq_true, if_false]
  rw [if_neg (by decide), h]


theorem set_read_bit_idem (p : Nat) : set_read_bit (set_read_bit p) = set_read_bit p := by
  unfold set_read_bit READ_BIT
  omega

theorem live_view_lt (s : reader_writer_store T) (i : Nat) (h : s.live_view i = true) :
    i < s.views.length := by
  by_contra hn
  unfold live_view at h
  rw [List.getD_eq_default _ _ (Nat.not_lt.mp hn)] at h
  cases h

/-- What a read does to the state. -/
theorem read_spec (s s1 : reader_writer_store T) (i : Nat) (h : s.read i = Res.ok s1) :
    s.live_view i = true ∧
      s1 = { s with cur := set_read_bit s.cur, views := s.views.set i (View.holds s.read_ref),
                    observed := true } := by
  unfold read at h
  split at h
  · next hl =>
    cases h
    exact ⟨hl, rfl⟩
  · cases h

/-- A second read by the same view changes nothing. -/
theorem read_read (s s1 : reader_writer_store T) (i : Nat) (h : s.read i = Res.ok s1) :
    s1.read i = Res.ok s1 := by
  obtain ⟨hl, e⟩ := read_spec s s1 i h
  have hlt := live_view_lt s i hl
  have hl1 : s1.live_view i = true := by
    rw [e]
    unfold live_view
    simp only [List.getD_eq_getElem?_getD, List.getElem?_set, hlt, if_true]
    rfl
  unfold read
  rw [if_pos hl1]
  congr 1
  rw [e]
  simp only [read_ref, set_read_bit_idem, List.set_set]

/-- C10: the observed flag.  In a reachable state the read bit of `cur` is clear exactly when
no read took place since `cur` was last stored by the constructor or by `write`.  A `write`
that returns leaves the bit clear.  A read by a live view returns, sets the bit, keeps the
addressed slot, the retirement queue, the live-reader count and the heap, and a further read
by the same view leaves the state as it is; a further read by any view keeps `cur`, the
queue, the count and the heap. -/
theorem observed_flag_invariant (s : reader_writer_store T) (hs : Reachable s) :
    (read_bit s.cur = 0 ↔ s.observed = false) ∧
    (∀ fuel v s1, s.write fuel v = Res.ok s1 → read_bit s1.cur = 0 ∧ s1.observed = false) ∧
    (∀ i, s.live_view i = true → ∃ s1, s.read i = Res.ok s1) ∧
    ∀ i s1, s.read i = Res.ok s1 →
      read_bit s1.cur = 1 ∧ s1.observed = true ∧ ptr_mask s1.cur = ptr_mask s.cur ∧
      s1.gc_queue = s.gc_queue ∧ s1.num_readers = s.num_readers ∧ s1.heap = s.heap ∧
      s1.read i = Res.ok s1 ∧
      ∀ j s2, s1.read j = Res.ok s2 →
        s2.cur = s1.cur ∧ s2.gc_queue = s1.gc_queue ∧ s2.num_readers = s1.num_readers ∧
        s2.heap = s1.heap ∧ s2.observed = s1.observed := by
  have hi := store_reachable_inv s hs
  refine ⟨?_, ?_, ?_, ?_⟩
  · have := hi.obs
    have hb : read_bit s.cur = 0 ∨ read_bit s.cur = 1 := by unfold read_bit; omega
    constructor
    · intro h0
      cases ho : s.observed with
      | false => rfl
      | true => have := this.mp ho; omega
    · intro hf
      rcases hb with hb | hb
      · exact hb
      · have := this.mpr hb
        rw [hf] at this
        cases this
  · intro fuel v s1 hw
    obtain ⟨_, h1, _, h3, _⟩ := write_spec fuel s v s1 hw hi
    exact ⟨h1, h3⟩
  · intro i hl
    exact ⟨_, by unfold read; rw [if_pos hl]⟩
  · intro i s1 h
    obtain ⟨hl, e⟩ := read_spec s s1 i h
    refine ⟨by rw [e]; exact read_bit_set_read_bit _, by rw [e],
      by rw [e]; exact ptr_mask_set_read_bit _, by rw [e], by rw [e], by rw [e],
      read_read s s1 i h, ?_⟩
    intro j s2 h2
    obtain ⟨_, e2⟩ := read_spec s1 s2 j h2
    refine ⟨?_, by rw [e2], by rw [e2], by rw [e2], ?_⟩
    · rw [e2, e]
      exact set_read_bit_idem _
    · rw [e2, e]

/-- Instance of C10 at the store after `construct 0; get_view; read`. -/
theorem observed_flag_invariant_read_once :
    Reachable read_once ∧
    (read_bit read_once.cur = 0 ↔ read_once.observed = false) ∧
    (∀ fuel v s1, read_once.write fuel v = Res.ok s1 →
      read_bit s1.cur = 0 ∧ s1.observed = false) ∧
    (∀ i, read_once.live_view i = true → ∃ s1, read_once.read i = Res.ok s1) ∧
    ∀ i s1, read_once.read i = Res.ok s1 →
      read_bit s1.cur = 1 ∧ s1.observed = true ∧ ptr_mask s1.cur = ptr_mask read_once.cur ∧
      s1.gc_queue = read_once.gc_queue ∧ s1.num_readers = read_once.num_readers ∧
      s1.heap = read_once.heap ∧ s1.read i = Res.ok s1 ∧
      ∀ j s2, s1.read j = Res.ok s2 →
        s2.cur = s1.cur ∧ s2.gc_queue = s1.gc_queue ∧ s2.num_readers = s1.num_readers ∧
        s2.heap = s1.heap ∧ s2.observed = s1.observed :=
  have hr : Reachable read_once :=
    store_reachable_of_run 0 [Op.get_view, Op.read 0] (construct 0) read_once (Reachable.construct 0)
      (by decide)
  ⟨hr, observed_flag_invariant read_once hr⟩

end reader_writer_store

/-! ## Theorems: ring_deque, pops, cursors and growth -/

namespace ring_deque

variable {α : Type}

/-- C17: on the buffer holding 1, 2, 3 in the cells 0, 1, 2 (end cursor 3), `pop_back()`
finalises the cell 3, which holds no element, and leaves the removed back element 3
constructed in the cell 2; the next `pop_back()` finalises that cell 2, again not the cell 1
of the back element 2 it removes.  `pop_front()` on the same buffer finalises the cell 0 of
the front element. -/
theorem pop_back_finalises_end_cursor_cell :
    (ring_deque.run 2 [Call.push_back 1, Call.push_back 2, Call.push_back 3] fresh).get?.map
        Prod.fst = some three ∧
      three.back = Access.present 2 3 ∧
      three.pop_back = (true, { three with eidx := 2, _size := 2 }) ∧
      three.pop_back.2.data = three.data ∧
      three.pop_back.2.data[2]? = some (some 3) ∧
      three.pop_back.2.content = [some 1, some 2] ∧
      three.pop_back.2.pop_back.2.data = [some 1, some 2] ++ List.replicate 14 none ∧
      three.pop_back.2.pop_back.2.content = [some 1] ∧
      three.pop_front.2.data = [none, some 2, some 3] ++ List.replicate 13 none := by
  refine ⟨by decide, by decide, by decide, by decide, by decide, by decide, by decide,
    by decide, by decide⟩

/-- The cursors and the count of a well-formed buffer. -/
theorem wf_cursors (d : ring_deque α) (h : WF d) :
    d.bidx < d._cap ∧ d.eidx < d._cap ∧ d._size ≤ d._cap ∧
      d.eidx = (d.bidx + d._size) % d._cap ∧
      (d.bidx = d.eidx → d._size = 0 ∨ d._size = d._cap) ∧
      (d.bidx ≠ d.eidx → 0 < d._size ∧ size_sub d._size 1 + 1 = d._size) := by
  refine ⟨h.bidx_lt, ?_, h.size_le, h.eidx_eq, (cursors_eq_iff d h).mp, ?_⟩
  · rw [h.eidx_eq]
    exact Nat.mod_lt _ h.cap_pos
  · intro hne
    have := (cursors_eq_iff d h).not.mp hne
    have hpos : 0 < d._size := by omega
    refine ⟨hpos, ?_⟩
    unfold size_sub
    rw [if_pos (by omega)]
    omega

/-- C18: in every state reached from a fresh buffer by the public calls that returned
(`reserve` with its precondition included), both cursors are below the capacity, the size is
at most the capacity and `eidx = (bidx + _size) % _cap`.  Hence equal cursors mean size 0 or
size `_cap`, and a pop that decrements `_size` finds it positive: the decrement does not
wrap. -/
theorem cursor_count_invariant (d : ring_deque α) (hd : Reachable (fun _ => true) d) :
    d.bidx < d._cap ∧ d.eidx < d._cap ∧ d._size ≤ d._cap ∧
      d.eidx = (d.bidx + d._size) % d._cap ∧
      (d.bidx = d.eidx → d._size = 0 ∨ d._size = d._cap) ∧
      (d.bidx ≠ d.eidx → 0 < d._size ∧ size_sub d._size 1 + 1 = d._size) ∧
      (d.pop_front.1 = true → d.pop_front.2._size + 1 = d._size) ∧
      (d.pop_back.1 = true → d.pop_back.2._size + 1 = d._size) := by
  have hw := (reachable_inv _ d hd).1
  obtain ⟨h1, h2, h3, h4, h5, h6⟩ := wf_cursors d hw
  refine ⟨h1, h2, h3, h4, h5, h6, ?_, ?_⟩
  · intro hp
    by_cases he : d.bidx = d.eidx
    · rw [pop_front_cannot d he] at hp
      cases hp
    · exact (pop_front_ok d hw he).2.2.2.2
  · intro hp
    by_cases he : d.bidx = d.eidx
    · rw [pop_back_cannot d he] at hp
      cases hp
    · exact (pop_back_ok d hw he).2.2.2.2

/-- Instance of C18 at the buffer `wrapped` (after `push_front(1); push_back(2)`). -/
theorem cursor_count_invariant_wrapped :
    Reachable (fun _ => true) wrapped ∧
      wrapped.bidx < wrapped._cap ∧ wrapped.eidx < wrapped._cap ∧
      wrapped._size ≤ wrapped._cap ∧
      wrapped.eidx = (wrapped.bidx + wrapped._size) % wrapped._cap ∧
      (wrapped.bidx = wrapped.eidx → wrapped._size = 0 ∨ wrapped._size = wrapped._cap) ∧
      (wrapped.bidx ≠ wrapped.eidx →
        0 < wrapped._size ∧ size_sub wrapped._size 1 + 1 = wrapped._size) ∧
      (wrapped.pop_front.1 = true → wrapped.pop_front.2._size + 1 = wrapped._size) ∧
      (wrapped.pop_back.1 = true → wrapped.pop_back.2._size + 1 = wrapped._size) :=
  ⟨reachable_wrapped, cursor_count_invariant wrapped reachable_wrapped⟩

/-- A push on a full buffer of capacity one trips the assertion of `reserve`. -/
theorem push_back_cap_one (d : ring_deque α) (hc : d._cap = 1) (hs : d._size = 1) (x : α)
    (fuel : Nat) : d.push_back (fuel + 1) x = Res.assert_failed ∧
      d.push_front (fuel + 1) x = Res.assert_failed := by
  have hr : d.reserve (d._cap * 3 / 2) = Res.assert_failed :=
    reserve_fails d _ (by rw [hc, hs])
  constructor
  · rw [push_back, if_neg (by omega), hr]
  · rw [push_front, if_neg (by omega), hr]

/-- C19: `reserve(1)` on a fresh buffer returns (1 > size 0); `push_back(1)` then fills the
single cell.  On this full buffer of capacity 1 a push requests the capacity
`1 * 3 / 2 = 1`, not greater than the size 1, the assertion of `reserve` fails, and neither
`push_back` nor `push_front` returns, whatever the fuel. -/
theorem push_fails_at_capacity_one :
    (ring_deque.run 2 [Call.reserve 1, Call.push_back 1] fresh).get?.map Prod.fst
        = some unit_full ∧
      unit_full._cap * 3 / 2 = 1 ∧ unit_full.size = 1 ∧
      unit_full.reserve (unit_full._cap * 3 / 2) = Res.assert_failed ∧
      ring_deque.run 2 [Call.reserve 1, Call.push_back 1, Call.push_back 2] fresh
        = Res.assert_failed ∧
      (∀ fuel, (unit_full.push_back fuel 2).get? = none) ∧
      ∀ fuel, (unit_full.push_front fuel 2).get? = none := by
  refine ⟨by decide, by decide, by decide, by decide, by decide, ?_, ?_⟩
  · intro fuel
    cases fuel with
    | zero => rfl
    | succ f => rw [(push_back_cap_one unit_full rfl rfl 2 f).1]; rfl
  · intro fuel
    cases fuel with
    | zero => rfl
    | succ f => rw [(push_back_cap_one unit_full rfl rfl 2 f).2]; rfl

end ring_deque

/-! ## Theorems: reader_writer_store, the full retirement queue -/

namespace reader_writer_store

variable {T : Type}

/-- C13: after `slip_trace` and the release of one view the queue holds 16 slots in 16
cells and 14 views are alive.  `write(17)` then skips the trim loop (16 is not greater than
14 + 2), `pop_front` removes nothing from the full queue, and the write returns with 17
slots queued, more than 14 + 2, having freed none. -/
theorem queue_exceeds_window_after_write :
    (run 2 (slip_trace ++ [Op.release 0]) (construct 0)).get?.map
        (fun s => (s.num_readers, s.gc_queue.size, s.gc_queue._cap, s.freed))
        = some (14, 16, 16, []) ∧
      (run 2 (slip_trace ++ [Op.release 0, Op.write 17]) (construct 0)).get?.map
        (fun s => (s.num_readers, s.gc_queue.size, s.freed)) = some (14, 17, []) := by
  refine ⟨by decide, by decide⟩

/-- C14: after `slip_trace` the queue is full.  `write(17)` publishes the front slot 32
without removing it, so the current slot is also queued; `write(18)` then queues the slot 32
a second time.  If instead the views are released after `write(17)`, `write(18)` deletes the
current slot 32 in its trim loop and queues it, and `write(19)` publishes this deleted slot. -/
theorem slot_with_two_owners :
    (run 2 (slip_trace ++ [Op.write 17]) (construct 0)).get?.map
        (fun s => (s.cur, s.gc_queue.content.count (some 32), s.freed)) = some (32, 1, []) ∧
      (run 2 (slip_trace ++ [Op.write 17, Op.write 18]) (construct 0)).get?.map
        (fun s => (s.cur, s.gc_queue.content.count (some 32), s.freed)) = some (34, 2, []) ∧
      (run 20 (slip_trace ++ [Op.write 17] ++ release_all ++ [Op.write 18]) (construct 0)).get?.map
        (fun s => (s.cur, s.gc_queue.content, s.freed.count 32)) = some (4, [some 32, some 2], 1) ∧
      (run 20 (slip_trace ++ [Op.write 17] ++ release_all ++ [Op.write 18, Op.write 19])
        (construct 0)).get?.map
        (fun s => (s.cur, s.freed.count 32)) = some (32, 1) := by
  refine ⟨by decide, by decide, by decide, by decide⟩

/-- With equal cursors `pop_front` removes nothing, so the drain loop of the destructor runs
out of any fuel on a queue that is not empty. -/
theorem drain_stuck : ∀ (fuel : Nat) (s : reader_writer_store T),
    s.gc_queue.bidx = s.gc_queue.eidx → s.gc_queue.empty = false →
    (∃ i p, s.gc_queue.front = Access.present i p) → drain fuel s = Res.out_of_fuel := by
  intro fuel
  induction fuel with
  | zero =>
    intro s _ hc _
    unfold drain
    rw [hc]
    rfl
  | succ f ih =>
    intro s he hc hf
    obtain ⟨i, p, hfp⟩ := hf
    unfold drain
    rw [hc, hfp]
    simp only [Bool.false_eq_true, if_false]
    rw [ring_deque.pop_front_cannot _ he]
    exact ih _ he hc ⟨i, p, hfp⟩

/-- C16: in the reachable state `jammed` no view is alive and the queue is full; the
destructor deletes the current slot and then never leaves its drain loop, since `pop_front`
removes nothing.  In the state after `slip_trace; write(17)` and the release of all views,
the destructor returns, but it has deleted the slot 32 twice: once as the current slot and
once as a queued slot. -/
theorem destructor_on_full_queue :
    run 2 jam_trace (construct 0) = Res.ok jammed ∧ jammed.num_readers = 0 ∧
      (∀ fuel, destroy fuel jammed = Res.out_of_fuel) ∧
      (run 2 (slip_trace ++ [Op.write 17] ++ release_all) (construct 0)).get?.map
        (fun s => (s.num_readers, s.cur, s.gc_queue.content.count (some 32), s.freed))
        = some (0, 32, 1, []) ∧
      ((run 2 (slip_trace ++ [Op.write 17] ++ release_all) (construct 0)).get?.bind
        (fun s => (destroy 20 s).get?)).map (fun s => (s.freed.count 32, s.freed.length,
          s.heap.length)) = some (2, 18, 17) := by
  refine ⟨by decide, by decide, ?_, by decide, by decide⟩
  intro fuel
  unfold destroy
  simp only
  rw [if_neg (by decide)]
  exact drain_stuck fuel _ (by decide) (by decide) ⟨0, 32, by decide⟩

end reader_writer_store

/-! ## Theorems: reader_writer_store, the steps of `write` -/

namespace ring_deque

variable {α : Type}

/-- When the first logical position holds `p`, `front()` refers to it. -/
theorem front_of_content (d : ring_deque α) (h : WF d) (p : α)
    (hc : d.content.head? = some (some p)) : d.front = Access.present d.bidx p := by
  rw [List.head?_eq_getElem?, content_getElem?] at hc
  by_cases hs : 0 < d._size
  · rw [if_pos hs, Nat.add_zero, Nat.mod_eq_of_lt h.bidx_lt, List.getD_eq_getElem?_getD] at hc
    unfold front access
    rw [if_pos hs]
    cases hx : d.data[d.bidx]? with
    | none => rw [hx] at hc; simp at hc
    | some c =>
      rw [hx] at hc
      simp only [Option.getD_some, Option.some.injEq] at hc
      rw [hc]
  · rw [if_neg hs] at hc
    cases hc

/-- A `pop_front` leaves a suffix of the content. -/
theorem pop_front_drop (d : ring_deque α) (h : WF d) :
    ∃ j, d.pop_front.2.content = d.content.drop j := by
  rcases (pop_front_inv d h).2.2 with h3 | h3
  · exact ⟨1, by rw [h3, List.drop_one]⟩
  · exact ⟨0, by rw [h3]; rfl⟩

end ring_deque

namespace reader_writer_store

variable {T : Type}

/-- The trim loop leaves a suffix of the queue and keeps its capacity. -/
theorem trim_drop : ∀ (fuel : Nat) (s s1 : reader_writer_store T), trim fuel s = Res.ok s1 →
    ring_deque.WF s.gc_queue →
    (∃ j, s1.gc_queue.content = s.gc_queue.content.drop j) ∧
      s1.gc_queue._cap = s.gc_queue._cap := by
  intro fuel
  induction fuel with
  | zero =>
    intro s s1 h _
    unfold trim at h
    split at h
    · cases h
    · cases h
      exact ⟨⟨0, rfl⟩, rfl⟩
  | succ f ih =>
    intro s s1 h hw
    unfold trim at h
    split at h
    · split at h
      · next i p hf =>
        obtain ⟨⟨j, hj⟩, hc⟩ := ih _ s1 h (ring_deque.pop_front_inv _ hw).1
        obtain ⟨k, hk⟩ := ring_deque.pop_front_drop _ hw
        refine ⟨⟨k + j, ?_⟩, ?_⟩
        · rw [hj]
          show (s.gc_queue.pop_front.2.content).drop j = _
          rw [hk, List.drop_drop]
        · rw [hc]
          exact (ring_deque.pop_front_inv _ hw).2.1
      · cases h
    · cases h
      exact ⟨⟨0, rfl⟩, rfl⟩

/-- Obtaining the destination slot leaves a suffix of the queue and keeps its capacity. -/
theorem write_dest_drop (fuel : Nat) (s : reader_writer_store T) (v : T) (p : Nat)
    (s2 : reader_writer_store T) (h : write_dest fuel s v = Res.ok (p, s2))
    (hw : ring_deque.WF s.gc_queue) :
    (∃ j, s2.gc_queue.content = s.gc_queue.content.drop j) ∧
      s2.gc_queue._cap = s.gc_queue._cap := by
  unfold write_dest at h
  split at h
  · simp only [alloc] at h
    split at h
    · cases h
      exact ⟨⟨0, rfl⟩, rfl⟩
    · cases h
  · split at h
    · next s1 ht =>
      obtain ⟨⟨j, hj⟩, hc⟩ := trim_drop fuel s s1 ht hw
      have h1 := (trim_inv fuel s s1 ht hw).1
      split at h
      · next i q hf =>
        cases h
        obtain ⟨k, hk⟩ := ring_deque.pop_front_drop _ h1
        refine ⟨⟨j + k, ?_⟩, ?_⟩
        · show s1.gc_queue.pop_front.2.content = _
          rw [hk, hj, List.drop_drop]
        · show s1.gc_queue.pop_front.2._cap = _
          rw [(ring_deque.pop_front_inv _ h1).2.1, hc]
      · cases h
    · cases h
    · cases h
    · cases h

/-- Where retiring puts the old slot, and what else it changes. -/
theorem write_retire_place (fuel : Nat) (s : reader_writer_store T) (p : Nat)
    (s2 : reader_writer_store T) (h : write_retire fuel s p = Res.ok s2)
    (hw : ring_deque.WF s.gc_queue) :
    (read_bit s.cur = 0 →
        s2.gc_queue.content = some (ptr_mask s.cur) :: s.gc_queue.content) ∧
      (read_bit s.cur = 1 →
        s2.gc_queue.content = s.gc_queue.content ++ [some (ptr_mask s.cur)]) ∧
      s2.gc_queue._size = s.gc_queue._size + 1 ∧
      (if s.gc_queue._size < s.gc_queue._cap then s2.gc_queue._cap = s.gc_queue._cap
       else s2.gc_queue._cap = s.gc_queue._cap * 3 / 2) := by
  unfold write_retire at h
  simp only at h
  by_cases hb : read_bit s.cur = 0
  · rw [if_pos hb] at h
    cases hp : s.gc_queue.push_front fuel (ptr_mask s.cur) with
    | ok q =>
      rw [hp] at h
      cases h
      obtain ⟨_, h2, h3, h4⟩ := ring_deque.push_front_spec fuel _ hw _ q hp
      refine ⟨fun _ => h2, fun h1 => (by rw [hb] at h1; cases h1), h3, ?_⟩
      split at h4
      · next hlt => rw [if_pos hlt]; exact h4
      · next hlt => rw [if_neg hlt]; exact h4.1
    | assert_failed => rw [hp] at h; cases h
    | undefined => rw [hp] at h; cases h
    | out_of_fuel => rw [hp] at h; cases h
  · rw [if_neg hb] at h
    cases hp : s.gc_queue.push_back fuel (ptr_mask s.cur) with
    | ok q =>
      rw [hp] at h
      cases h
      obtain ⟨_, h2, h3, h4⟩ := ring_deque.push_back_spec fuel _ hw _ q hp
      refine ⟨fun h0 => absurd h0 hb, fun _ => h2, h3, ?_⟩
      split at h4
      · next hlt => rw [if_pos hlt]; exact h4
      · next hlt => rw [if_neg hlt]; exact h4.1
    | assert_failed => rw [hp] at h; cases h
    | undefined => rw [hp] at h; cases h
    | out_of_fuel => rw [hp] at h; cases h

/-- The two halves of a `write` that returned. -/
theorem write_split (fuel : Nat) (s : reader_writer_store T) (v : T)
    (s1 : reader_writer_store T) (h : s.write fuel v = Res.ok s1) :
    s.write_lock = false ∧ ∃ p s2 s3,
      write_dest fuel { s with write_lock := true } v = Res.ok (p, s2) ∧
      write_retire fuel s2 p = Res.ok s3 ∧ s1 = { s3 with write_lock := false } := by
  unfold write at h
  cases hl : s.write_lock with
  | true => rw [hl] at h; simp at h
  | false =>
    rw [hl] at h
    simp only [Bool.false_eq_true, if_false] at h
    refine ⟨rfl, ?_⟩
    cases hd : write_dest fuel { s with write_lock := true } v with
    | ok r =>
      obtain ⟨p, s2⟩ := r
      rw [hd] at h
      simp only at h
      cases hr : write_retire fuel s2 p with
      | ok s3 =>
        rw [hr] at h
        cases h
        exact ⟨p, s2, s3, rfl, hr, rfl⟩
      | assert_failed => rw [hr] at h; cases h
      | undefined => rw [hr] at h; cases h
      | out_of_fuel => rw [hr] at h; cases h
    | assert_failed => rw [hd] at h; cases h
    | undefined => rw [hd] at h; cases h
    | out_of_fuel => rw [hd] at h; cases h

/-- C12: asymmetric retirement.  When `write(v)` returns on a reachable store, the queue
consists of a suffix of the old queue (the slots that stay, in their old order) and of the
slot that was current before the write: this slot is the first entry if its read bit was
clear when it was swapped out, and the last entry if the bit was set. -/
theorem asymmetric_retirement (s : reader_writer_store T) (hs : Reachable s) (fuel : Nat)
    (v : T) (s1 : reader_writer_store T) (hw : s.write fuel v = Res.ok s1) :
    ∃ j,
      (read_bit s.cur = 0 →
        s1.gc_queue.content = some (ptr_mask s.cur) :: s.gc_queue.content.drop j ∧
        s1.gc_queue.front = Access.present s1.gc_queue.bidx (ptr_mask s.cur)) ∧
      (read_bit s.cur = 1 →
        s1.gc_queue.content = s.gc_queue.content.drop j ++ [some (ptr_mask s.cur)] ∧
        s1.gc_queue.content.getLast? = some (some (ptr_mask s.cur))) := by
  have hi := store_reachable_inv s hs
  obtain ⟨_, p, s2, s3, hd, hr, e⟩ := write_split fuel s v s1 hw
  obtain ⟨⟨j, hj⟩, _⟩ := write_dest_drop fuel _ v p s2 hd hi.wf
  obtain ⟨d1, _, _, _, _, d6, _⟩ := write_dest_spec fuel _ v p s2 hd hi.wf hi.queue_valid
  obtain ⟨r1, r2, _, _⟩ := write_retire_place fuel s2 p s3 hr d1
  have hw3 := (write_retire_spec fuel s2 p s3 hr d1).1
  have hcur : s2.cur = s.cur := d6
  have hj : s2.gc_queue.content = s.gc_queue.content.drop j := hj
  refine ⟨j, ?_, ?_⟩
  · intro hb
    have hc : s3.gc_queue.content = some (ptr_mask s.cur) :: s.gc_queue.content.drop j := by
      rw [r1 (by rw [hcur]; exact hb), hcur, hj]
    rw [e]
    exact ⟨hc, ring_deque.front_of_content _ hw3 _ (by rw [hc]; rfl)⟩
  · intro hb
    have hc : s3.gc_queue.content = s.gc_queue.content.drop j ++ [some (ptr_mask s.cur)] := by
      rw [r2 (by rw [hcur]; exact hb), hcur, hj]
    rw [e]
    exact ⟨hc, by rw [hc]; simp⟩

/-- Instance of C12 at `stalled` and `write(4)`: the old current slot 8, whose read bit was
set, is the last entry of the queue. -/
theorem asymmetric_retirement_stalled :
    Reachable stalled ∧ stalled.write 2 4 = Res.ok stalled_next ∧
    ∃ j,
      (read_bit stalled.cur = 0 →
        stalled_next.gc_queue.content
          = some (ptr_mask stalled.cur) :: stalled.gc_queue.content.drop j ∧
        stalled_next.gc_queue.front
          = Access.present stalled_next.gc_queue.bidx (ptr_mask stalled.cur)) ∧
      (read_bit stalled.cur = 1 →
        stalled_next.gc_queue.content
          = stalled.gc_queue.content.drop j ++ [some (ptr_mask stalled.cur)] ∧
        stalled_next.gc_queue.content.getLast? = some (some (ptr_mask stalled.cur))) :=
  ⟨reachable_stalled, by decide,
    asymmetric_retirement stalled reachable_stalled 2 4 stalled_next (by decide)⟩

end reader_writer_store

/-! ## Theorems: reader_writer_store, a `write` that returns -/

namespace reader_writer_store

variable {T : Type}

end reader_writer_store

/-! ## Theorems: reader_writer_store, the destination slot -/

namespace reader_writer_store

variable {T : Type}

end reader_writer_store

/-! ## Theorems: reader_writer_store, writes inside the quarantine window -/

namespace reader_writer_store

variable {T : Type}

end reader_writer_store

/-! ## Theorems: reader_writer_store, reuse of the slot retired last -/

namespace reader_writer_store

variable {T : Type}

end reader_writer_store

/-! ## Theorems: reader_writer_store, allocation under a fixed reader count -/

namespace reader_writer_store

variable {T : Type}

end reader_writer_store

namespace reader_writer_store

variable {T : Type}

end reader_writer_store

end WaitFree
